import Mathlib

/-!
Verification of the Synchronator Dropbox synchronizer (`Synchronator.py`).

The development shallowly embeds the reconciliation engine of the script:

* the persisted `DropboxState` (the `local_files` / `remote_files` metadata
  dictionaries, embedded as association lists from relative path to
  `FileMeta`);
* the remote pass `execute_delta` (entry processing in
  `__process_remote_entries` followed by the local-deletion sweep);
* the local pass `check_local` (`check_state` per scanned path followed by
  the remote-deletion sweep);
* the transfer operations `upload` / `download_remote`, the deletion
  operations `delete_local` / `delete_remote`, and `make_local_dir`;
* the chunked-upload request protocol of `upload` (the Dropbox API request
  sequence as a function of the file size);
* the file-content trajectory of `save_state`.

Effects on the outside world run over a small `World` model: the remote
listing (what `files_list_folder` returns, and what uploads and remote
deletions mutate), the local disk (files with modification times,
directories), and counters supplying fresh modification times for
downloaded files and fresh revision identifiers for uploaded files.
Revisions are opaque identifiers compared only for equality; they are
embedded as natural numbers.

Python exception semantics are kept: every operation returns the state it
has built up at the point it stops, together with `none` on normal return
or `some e` when it raises, and mutations made before an exception
persist.
-/

namespace Synchronator

/-! ### Association-list dictionaries (Python `dict`) -/

/-- Python dict lookup `m[k]` / membership `k in m` (first binding wins;
the operations below never create duplicate keys). -/
def alookup {β : Type} : List (String × β) → String → Option β
  | [], _ => none
  | (k, v) :: rest, key => if k = key then some v else alookup rest key

/-- Python dict deletion `del m[k]` (callers perform the membership check;
see the deletion operations). -/
def adel {β : Type} : List (String × β) → String → List (String × β)
  | [], _ => []
  | (k, v) :: rest, key => if k = key then adel rest key else (k, v) :: adel rest key

/-- Python dict assignment `m[k] = v`. -/
def aset {β : Type} (m : List (String × β)) (k : String) (v : β) : List (String × β) :=
  (k, v) :: adel m k

/-- Python `m.keys()`. -/
def akeys {β : Type} (m : List (String × β)) : List String := m.map Prod.fst

theorem alookup_adel {β : Type} (m : List (String × β)) (k key : String) :
    alookup (adel m k) key = if k = key then none else alookup m key := by
  induction m with
  | nil => simp [adel, alookup]
  | cons hd tl ih =>
    obtain ⟨k', v⟩ := hd
    by_cases h1 : k' = k
    · subst h1
      rw [show adel ((k', v) :: tl) k' = adel tl k' by simp [adel], ih]
      by_cases h2 : k' = key
      · simp [h2]
      · simp [alookup, h2]
    · rw [show adel ((k', v) :: tl) k = (k', v) :: adel tl k by simp [adel, h1]]
      by_cases h2 : k' = key
      · subst h2
        have hk : ¬ k = k' := fun h => h1 h.symm
        simp [alookup, hk]
      · simp [alookup, h2, ih]

theorem alookup_aset {β : Type} (m : List (String × β)) (k key : String) (v : β) :
    alookup (aset m k v) key = if k = key then some v else alookup m key := by
  by_cases h : k = key <;> simp [aset, alookup, h, alookup_adel]

theorem alookup_isSome_iff_mem_akeys {β : Type} (m : List (String × β)) (key : String) :
    (alookup m key).isSome ↔ key ∈ akeys m := by
  induction m with
  | nil => simp [alookup, akeys]
  | cons hd tl ih =>
    obtain ⟨k, v⟩ := hd
    by_cases h : k = key
    · simp [alookup, akeys, h]
    · have hk : ¬ key = k := fun hh => h hh.symm
      simp [alookup, akeys, h, hk, ih]

theorem mem_akeys_adel {β : Type} (m : List (String × β)) (k key : String) :
    key ∈ akeys (adel m k) ↔ key ≠ k ∧ key ∈ akeys m := by
  rw [← alookup_isSome_iff_mem_akeys, ← alookup_isSome_iff_mem_akeys, alookup_adel]
  by_cases h : k = key
  · simp [h]
  · have hk : key ≠ k := fun hh => h hh.symm
    simp [h, hk]

/-! ### Data model -/

/-- The per-file metadata record stored under a path in both state maps
(`{'rev': ..., 'modified': ...}`, lines 105-108 and 176-179).  Revisions
are opaque identifiers compared only for equality, embedded as `Nat`;
modification times are embedded as `Nat`. -/
structure FileMeta where
  rev : Nat
  modified : Nat
deriving DecidableEq

/-- The persisted sync state (`DropboxState.__init__`, lines 68-70). -/
structure DropboxState where
  local_files : List (String × FileMeta)
  remote_files : List (String × FileMeta)
deriving DecidableEq

/-- One entry of the remote listing: `dropbox.files.FileMetadata` (with its
path and revision; the other fields `name`, `id`, `client_modified`,
`server_modified`, `content_hash` are read at lines 185-191 but never used)
or `dropbox.files.FolderMetadata` (with its path). -/
inductive RemoteEntry where
  | file (path : String) (rev : Nat)
  | folder (path : String)
deriving DecidableEq

/-- The path of a remote entry (`entry.path_display[1:]`, line 187). -/
def RemoteEntry.path : RemoteEntry → String
  | .file p _ => p
  | .folder p => p

/-- The paths of the file entries of a listing. -/
def filePaths : List RemoteEntry → List String
  | [] => []
  | .file p _ :: rest => p :: filePaths rest
  | .folder _ :: rest => filePaths rest

/-- The world outside the `DropboxState`: the remote store contents (which
`files_list_folder` lists, pages concatenated), the local disk (files with
their modification times, and directories), and counters supplying fresh
modification times for downloaded files and fresh revisions assigned by the
remote store to uploaded files. -/
structure World where
  remote : List RemoteEntry
  disk : List (String × Nat)
  dirs : List String
  clock : Nat
  revc : Nat
deriving DecidableEq

/-- Observable transfer/deletion actions, in the order they are printed by
the script. -/
inductive Ev where
  | download (path : String)
  | upload (path : String)
  | delLocal (path : String)
  | delRemote (path : String)
  | mkdir (path : String)
deriving DecidableEq

/-- Python exceptions the embedded code can raise: `KeyError` from `del` on
a missing dict key, `AttributeError` from the nonexistent `os.makedir`,
`OSError` from `os.path.getsize`/`getmtime` on a missing file, and a
Dropbox `ApiError` from a failing download. -/
inductive Err where
  | keyError
  | attrError
  | osError
  | apiError
deriving DecidableEq

/-- Failures of the removal/deletion primitives (`os.remove`,
`dbx.files_delete`): the object is already absent, or some other failure
such as a permission error. -/
inductive PrimErr where
  | notFound
  | permission
deriving DecidableEq

/-- A program configuration: the world, the sync state, and the trace of
actions performed so far. -/
structure Sys where
  w : World
  st : DropboxState
  tr : List Ev
deriving DecidableEq

/-! ### World primitives -/

/-- `os.path.split(path)[0]` for a `/`-separated relative path. -/
def dirname (p : String) : String :=
  String.intercalate "/" ((p.splitOn "/").dropLast)

/-- `os.path.exists` over the world model. -/
def os_path_exists (w : World) (p : String) : Bool :=
  (alookup w.disk p).isSome || w.dirs.contains p

/-- `os.path.isfile` over the world model. -/
def os_path_isfile (w : World) (p : String) : Bool :=
  (alookup w.disk p).isSome

/-- `os.remove`: removes the file, or fails when it is absent. -/
def os_remove (d : List (String × Nat)) (p : String) :
    List (String × Nat) × Except PrimErr Unit :=
  if (alookup d p).isSome then (adel d p, .ok ()) else (d, .error .notFound)

/-- The revision the remote store currently holds for a file path (used by
`files_download_to_file`, whose result carries `result.rev`). -/
def remoteRev : List RemoteEntry → String → Option Nat
  | [], _ => none
  | .file q r :: rest, p => if q = p then some r else remoteRev rest p
  | .folder _ :: rest, p => remoteRev rest p

/-- The remote store's reaction to an upload commit at `p`: the first file
entry at `p` gets the fresh revision, a missing file entry is appended. -/
def setRemoteFile : List RemoteEntry → String → Nat → List RemoteEntry
  | [], p, v => [.file p v]
  | .file q r :: rest, p, v =>
      if q = p then .file p v :: rest else .file q r :: setRemoteFile rest p v
  | .folder q :: rest, p, v => .folder q :: setRemoteFile rest p v

/-- `dbx.files_delete(path)`: removes the entry at `path`, or fails when no
entry exists there. -/
def dbx_files_delete (l : List RemoteEntry) (p : String) :
    List RemoteEntry × Except PrimErr Unit :=
  if l.any (fun e => e.path == p) then
    (l.filter (fun e => !(e.path == p)), .ok ())
  else (l, .error .notFound)

/-! ### Transfer and deletion operations

Each operation returns the configuration it has built at the point it
stops, with `none` on normal return and `some e` when it raises `e`;
mutations made before an exception persist (Python object semantics). -/

/-- The print and parent-directory handling of `download_remote` (lines
97-103), before the download request itself. -/
def download_prep (sys : Sys) (path : String) : Sys :=
  let sys1 : Sys := { sys with tr := sys.tr ++ [Ev.download path] }
  let head := dirname path
  if !os_path_exists sys1.w head && head ≠ "" then
    { sys1 with w := { sys1.w with dirs := head :: sys1.w.dirs } }
  else sys1

/-- `DropboxState.download_remote` (lines 96-110): print the action, ensure
the parent directory exists, download the remote content to the local file
(which stamps it with a fresh modification time), and record the same
`{rev, modified}` metadata in both maps. -/
def download_remote (sys : Sys) (path : String) : Sys × Option Err :=
  let sys2 := download_prep sys path
  match remoteRev sys2.w.remote path with
  | none => (sys2, some .apiError)
  | some r =>
      let t := sys2.w.clock
      let meta : FileMeta := ⟨r, t⟩
      ({ sys2 with
          w := { sys2.w with disk := aset sys2.w.disk path t, clock := t + 1 }
          st := { local_files := aset sys2.st.local_files path meta
                  remote_files := aset sys2.st.remote_files path meta } }, none)

/-- The effect of `DropboxState.upload` (lines 137-181) on the world and
state: print the action, read the file (its size and modification time come
from the disk; a missing file raises `OSError`), send the content to the
remote store (which assigns a fresh revision; the request protocol itself
is modelled separately by `upload_requests`), and record the same
`{rev, modified}` metadata in both maps. -/
def upload (sys : Sys) (path : String) : Sys × Option Err :=
  let sys1 : Sys := { sys with tr := sys.tr ++ [Ev.upload path] }
  match alookup sys1.w.disk path with
  | none => (sys1, some .osError)
  | some mt =>
      let v := sys1.w.revc
      let meta : FileMeta := ⟨v, mt⟩
      ({ sys1 with
          w := { sys1.w with remote := setRemoteFile sys1.w.remote path v, revc := v + 1 }
          st := { local_files := aset sys1.st.local_files path meta
                  remote_files := aset sys1.st.remote_files path meta } }, none)

/-- The state part of `DropboxState.delete_local` (lines 80-85): the
outcome `res` of the removal primitive is swallowed by `try ... except:
pass` whatever it is, then `del self.local_files[path]` and
`del self.remote_files[path]` run in that order, each raising `KeyError`
when the key is absent. -/
def delete_local_prim (res : Except PrimErr Unit) (st : DropboxState) (path : String) :
    DropboxState × Option Err :=
  match res with
  | _ =>
    if (alookup st.local_files path).isSome then
      let st1 : DropboxState := { st with local_files := adel st.local_files path }
      if (alookup st1.remote_files path).isSome then
        ({ st1 with remote_files := adel st1.remote_files path }, none)
      else (st1, some .keyError)
    else (st, some .keyError)

/-- The state part of `DropboxState.delete_remote` (lines 89-94): identical
to `delete_local_prim` (same `try ... except: pass`, same two `del`s). -/
def delete_remote_prim (res : Except PrimErr Unit) (st : DropboxState) (path : String) :
    DropboxState × Option Err :=
  match res with
  | _ =>
    if (alookup st.local_files path).isSome then
      let st1 : DropboxState := { st with local_files := adel st.local_files path }
      if (alookup st1.remote_files path).isSome then
        ({ st1 with remote_files := adel st1.remote_files path }, none)
      else (st1, some .keyError)
    else (st, some .keyError)

/-- `DropboxState.delete_local` (lines 78-85) over the world model. -/
def delete_local (sys : Sys) (path : String) : Sys × Option Err :=
  let sys1 : Sys := { sys with tr := sys.tr ++ [Ev.delLocal path] }
  let rm := os_remove sys1.w.disk path
  let sys2 : Sys := { sys1 with w := { sys1.w with disk := rm.1 } }
  let r := delete_local_prim rm.2 sys2.st path
  ({ sys2 with st := r.1 }, r.2)

/-- `DropboxState.delete_remote` (lines 87-94) over the world model. -/
def delete_remote (sys : Sys) (path : String) : Sys × Option Err :=
  let sys1 : Sys := { sys with tr := sys.tr ++ [Ev.delRemote path] }
  let rm := dbx_files_delete sys1.w.remote path
  let sys2 : Sys := { sys1 with w := { sys1.w with remote := rm.1 } }
  let r := delete_remote_prim rm.2 sys2.st path
  ({ sys2 with st := r.1 }, r.2)

/-- `DropboxState.make_local_dir` (lines 127-135).  When the path does not
exist the directory is created (`os.makedirs`).  When a file occupies the
path, the file is removed, its entry is deleted from `local_files` only,
and then `os.makedir(path)` runs - `os.makedir` does not exist (the real
function is `os.mkdir`), so this raises `AttributeError` after the file and
the `local_files` entry are already gone. -/
def make_local_dir (sys : Sys) (path : String) : Sys × Option Err :=
  if !os_path_exists sys.w path then
    ({ sys with w := { sys.w with dirs := path :: sys.w.dirs } }, none)
  else if os_path_isfile sys.w path then
    let sys1 : Sys := { sys with w := { sys.w with disk := adel sys.w.disk path } }
    if (alookup sys1.st.local_files path).isSome then
      ({ sys1 with
          st := { sys1.st with local_files := adel sys1.st.local_files path } },
        some .attrError)
    else (sys1, some .keyError)
  else (sys, none)

/-- `DropboxState.check_state` (lines 72-76): upload when the path is
unknown remotely, or when the file's current modification time is strictly
newer than the recorded one. -/
def check_state (sys : Sys) (path : String) : Sys × Option Err :=
  if (alookup sys.st.remote_files path).isNone then
    upload sys path
  else
    match alookup sys.w.disk path with
    | none => (sys, some .osError)
    | some mt =>
        match alookup sys.st.local_files path with
        | none => (sys, some .keyError)
        | some m => if m.modified < mt then upload sys path else (sys, none)

/-! ### The remote pass -/

/-- `remote_file_paths.add(path)` (`remote_file_paths` is a Python set). -/
def addSeen (seen : List String) (p : String) : List String :=
  if p ∈ seen then seen else seen ++ [p]

/-- The body of the `for entry in entries` loop of
`DropboxState.__process_remote_entries` (lines 184-201).  A file entry is
downloaded when its path is unknown locally or its revision differs from
the recorded one, and its path is added to the seen set afterwards; a
folder entry whose path does not exist locally is printed and handed to
`make_local_dir`. -/
def process_entry (acc : Sys × List String) (e : RemoteEntry) :
    (Sys × List String) × Option Err :=
  match e with
  | .file path r =>
      match alookup acc.1.st.local_files path with
      | none =>
          let d := download_remote acc.1 path
          match d.2 with
          | none => ((d.1, addSeen acc.2 path), none)
          | some er => ((d.1, acc.2), some er)
      | some m =>
          if r ≠ m.rev then
            let d := download_remote acc.1 path
            match d.2 with
            | none => ((d.1, addSeen acc.2 path), none)
            | some er => ((d.1, acc.2), some er)
          else ((acc.1, addSeen acc.2 path), none)
  | .folder path =>
      if !os_path_exists acc.1.w path then
        let sys1 : Sys := { acc.1 with tr := acc.1.tr ++ [Ev.mkdir path] }
        let d := make_local_dir sys1 path
        ((d.1, acc.2), d.2)
      else ((acc.1, acc.2), none)

/-- `DropboxState.__process_remote_entries` over a whole listing (all
pages concatenated; the pagination loop of `execute_delta`, lines 115-120,
only stitches pages together). -/
def process_remote_entries : List RemoteEntry → Sys × List String →
    (Sys × List String) × Option Err
  | [], acc => (acc, none)
  | e :: es, acc =>
      match process_entry acc e with
      | (acc', none) => process_remote_entries es acc'
      | (acc', some er) => (acc', some er)

/-- The deletion sweep of `execute_delta` (lines 121-125): over the
snapshot of `remote_files.keys()`, delete locally every path that was not
seen in the listing and is still in `local_files`. -/
def delete_sweep : List String → List String → Sys → Sys × Option Err
  | [], _, sys => (sys, none)
  | p :: ps, seen, sys =>
      if p ∉ seen then
        if (alookup sys.st.local_files p).isSome then
          match delete_local sys p with
          | (sys', none) => delete_sweep ps seen sys'
          | (sys', some er) => (sys', some er)
        else delete_sweep ps seen sys
      else delete_sweep ps seen sys

/-- `DropboxState.execute_delta` (lines 112-125): process the whole remote
listing, then run the deletion sweep over the keys of `remote_files`. -/
def execute_delta (sys : Sys) : Sys × Option Err :=
  match process_remote_entries sys.w.remote (sys, []) with
  | ((sys', seen), none) => delete_sweep (akeys sys'.st.remote_files) seen sys'
  | ((sys', _), some er) => (sys', some er)

/-! ### The local pass -/

/-- The state file name (line 63). -/
def STATE_FILE : String := ".dropbox_state"

/-- `valid_filename_for_upload` (lines 267-273). -/
def valid_filename_for_upload (filename : String) : Bool :=
  !(filename == STATE_FILE || filename.startsWith "." || filename.startsWith "@" ||
    filename.endsWith "~" || filename.endsWith ".pyc" || filename.endsWith ".pyo")

/-- `valid_dir_for_upload` (lines 252-264), over the `/`-separated
components of the directory with their positions. -/
def valid_dir_for_upload (dir : String) : Bool :=
  (dir.splitOn "/").enum.all fun q =>
    if q.2 = "." then true
    else !(q.2.startsWith "." || (q.1 == 1 && q.2.startsWith "site") ||
           (q.1 == 1 && q.2 == "temp"))

/-- Whether `os.walk`-based scan of `check_local` (lines 206-210) keeps a
relative path: its directory (as walked, rooted at `.`) passes
`valid_dir_for_upload` and its filename passes
`valid_filename_for_upload`. -/
def scan_valid (p : String) : Bool :=
  let parts := p.splitOn "/"
  valid_dir_for_upload (String.intercalate "/" ("." :: parts.dropLast)) &&
    valid_filename_for_upload (parts.getLastD "")

/-- The `filelist` built by `check_local` (lines 205-210): the files on
disk that pass the inclusion filters. -/
def scan (d : List (String × Nat)) : List String :=
  (d.map Prod.fst).filter scan_valid

/-- The `for path in filelist: state.check_state(dbx, path)` loop of
`check_local` (lines 211-212). -/
def check_local_loop : List String → Sys → Sys × Option Err
  | [], sys => (sys, none)
  | p :: ps, sys =>
      match check_state sys p with
      | (sys', none) => check_local_loop ps sys'
      | (sys', some er) => (sys', some er)

/-- The remote-deletion sweep of `check_local` (lines 213-217): over the
snapshot of `local_files.keys()`, delete remotely every path absent from
the scan. -/
def delete_remote_sweep (filelist : List String) : List String → Sys → Sys × Option Err
  | [], sys => (sys, none)
  | f :: fs, sys =>
      if f ∉ filelist then
        match delete_remote sys f with
        | (sys', none) => delete_remote_sweep filelist fs sys'
        | (sys', some er) => (sys', some er)
      else delete_remote_sweep filelist fs sys

/-- `check_local` (lines 203-217). -/
def check_local (sys : Sys) : Sys × Option Err :=
  let filelist := scan sys.w.disk
  match check_local_loop filelist sys with
  | (sys', none) => delete_remote_sweep filelist (akeys sys'.st.local_files) sys'
  | (sys', some er) => (sys', some er)

/-- One reconciliation run of the `__main__` block (lines 284-296), state
saving aside: `check_remote` (which is `execute_delta`, lines 219-221)
followed by `check_local`. -/
def run (sys : Sys) : Sys × Option Err :=
  match execute_delta sys with
  | (sys', none) => check_local sys'
  | (sys', some er) => (sys', some er)

/-! ### The upload request protocol (lines 137-175)

`upload` branches on `os.path.getsize(path)`.  Above the threshold it
drives a chunked upload session over 10 MB reads; below, a single
`files_upload` call.  The request sequence depends on the file only
through the lengths of the successive `local_fr.read(10000000)` results,
so it is embedded as a function of the size. -/

/-- The large-file threshold of line 143. -/
def large_file_threshold : Nat := 140000000

/-- One Dropbox API request issued by `upload`: every request carries the
length of the `data` argument; cursors carry their byte offset; the finish
and single-shot requests carry the destination path and the write mode. -/
inductive UploadReq where
  | sessionStart (dataLen : Nat) (close : Bool)
  | sessionAppend (dataLen : Nat) (cursorOffset : Option Nat) (close : Bool)
  | sessionFinish (dataLen : Nat) (cursorOffset : Option Nat)
      (commitPath : String) (overwrite : Bool)
  | filesUpload (dataLen : Nat) (path : String) (overwrite : Bool)
deriving DecidableEq

/-- The `while not close` loop of lines 150-166 followed by the
`files_upload_session_finish` call of lines 167-169.  `remaining` is what
is left in the file after the reads performed so far, `dataLen` the length
of the last read, `cursor` the offset of `session_cursor` (set at the end
of each iteration to the running `offset`), `started` whether
`files_upload_session_start` already ran.  The loop consumes fuel; the
callers pass enough (see `uploadChunkLoop_total`). -/
def uploadChunkLoop : Nat → Nat → Nat → Bool → Option Nat → Nat → String →
    Option (List UploadReq)
  | 0, _, _, _, _, _, _ => none
  | fuel + 1, remaining, dataLen, started, cursor, offset, path =>
      if dataLen < 10000000 then
        some [UploadReq.sessionFinish dataLen cursor ("/" ++ path) true]
      else
        let req := if started then UploadReq.sessionAppend dataLen cursor false
          else UploadReq.sessionStart dataLen false
        let offset' := offset + dataLen
        let dataLen' := min 10000000 remaining
        let remaining' := remaining - dataLen'
        (uploadChunkLoop fuel remaining' dataLen' true (some offset') offset' path).map
          (req :: ·)

/-- The request sequence `upload` issues for a file of `size` bytes at
`path` (lines 142-175): above the threshold, the chunked session; below,
one `files_upload` of the whole content with `WriteMode.overwrite` at
`os.path.join('/', path)`. -/
def upload_requests (size : Nat) (path : String) : Option (List UploadReq) :=
  if size > large_file_threshold then
    let dataLen := min 10000000 size
    uploadChunkLoop (size + 2) (size - dataLen) dataLen false none 0 path
  else
    some [UploadReq.filesUpload size ("/" ++ path) true]

/-! ### State persistence (lines 235-249) -/

/-- The file-content trajectory of `save_state` (lines 246-249):
`open(STATE_FILE, 'w')` truncates the state file in place, then
`pickle.dump` writes the serialized bytes.  The list holds the successive
on-disk contents a crash could expose: the truncated file, then the
completed write. -/
def save_state_trajectory (serialized : List Nat) : List (List Nat) :=
  [[], serialized]

/-- `load_state` (lines 235-243): unpickle the state file; any failure
(missing file, corrupt contents) is caught and yields a fresh empty
`DropboxState`.  `decode` stands for `pickle.load`, `content` for the file
(absent or with its bytes). -/
def load_state (decode : List Nat → Option DropboxState) (content : Option (List Nat)) :
    DropboxState :=
  match content with
  | none => ⟨[], []⟩
  | some bs =>
      match decode bs with
      | some st => st
      | none => ⟨[], []⟩

/-! ### Free composition of the state operations (for the map invariant) -/

/-- An invocation of one of the five `DropboxState` methods that touch the
two maps. -/
inductive Op where
  | upload (path : String)
  | download (path : String)
  | delLocal (path : String)
  | delRemote (path : String)
  | mkdir (path : String)

/-- Applying an operation to a configuration, keeping the configuration it
built even when the operation raises (Python mutations persist across an
exception). -/
def applyOp (sys : Sys) : Op → Sys
  | .upload p => (upload sys p).1
  | .download p => (download_remote sys p).1
  | .delLocal p => (delete_local sys p).1
  | .delRemote p => (delete_remote sys p).1
  | .mkdir p => (make_local_dir sys p).1

/-- Configurations reachable from an empty `DropboxState` (any world, any
trace) by any sequence of the five operations. -/
inductive ReachableState : Sys → Prop where
  | base (w : World) (tr : List Ev) : ReachableState ⟨w, ⟨[], []⟩, tr⟩
  | step (sys : Sys) (o : Op) : ReachableState sys → ReachableState (applyOp sys o)

/-! ### Basic facts about the operations -/

@[simp] theorem download_prep_st (sys : Sys) (p : String) :
    (download_prep sys p).st = sys.st := by
  dsimp only [download_prep]; split <;> rfl

@[simp] theorem download_prep_remote (sys : Sys) (p : String) :
    (download_prep sys p).w.remote = sys.w.remote := by
  dsimp only [download_prep]; split <;> rfl

@[simp] theorem download_prep_disk (sys : Sys) (p : String) :
    (download_prep sys p).w.disk = sys.w.disk := by
  dsimp only [download_prep]; split <;> rfl

@[simp] theorem download_prep_clock (sys : Sys) (p : String) :
    (download_prep sys p).w.clock = sys.w.clock := by
  dsimp only [download_prep]; split <;> rfl

@[simp] theorem download_prep_revc (sys : Sys) (p : String) :
    (download_prep sys p).w.revc = sys.w.revc := by
  dsimp only [download_prep]; split <;> rfl

@[simp] theorem download_prep_tr (sys : Sys) (p : String) :
    (download_prep sys p).tr = sys.tr ++ [Ev.download p] := by
  dsimp only [download_prep]; split <;> rfl

theorem download_remote_tr (sys : Sys) (p : String) :
    (download_remote sys p).1.tr = sys.tr ++ [Ev.download p] := by
  unfold download_remote
  simp only [download_prep_remote]
  cases h : remoteRev sys.w.remote p <;> simp [h]

theorem upload_tr (sys : Sys) (p : String) :
    (upload sys p).1.tr = sys.tr ++ [Ev.upload p] := by
  unfold upload
  cases h : alookup sys.w.disk p <;> simp [h]

theorem make_local_dir_tr (sys : Sys) (p : String) :
    (make_local_dir sys p).1.tr = sys.tr := by
  unfold make_local_dir
  split
  · rfl
  · dsimp only
    split
    · split <;> rfl
    · rfl

/-- A successful upload, described pointwise. -/
theorem upload_success (sys sys' : Sys) (p : String) (h : upload sys p = (sys', none)) :
    ∃ mt, alookup sys.w.disk p = some mt ∧
      sys'.w.remote = setRemoteFile sys.w.remote p sys.w.revc ∧
      sys'.w.disk = sys.w.disk ∧
      sys'.w.clock = sys.w.clock ∧
      sys'.st.local_files = aset sys.st.local_files p ⟨sys.w.revc, mt⟩ ∧
      sys'.st.remote_files = aset sys.st.remote_files p ⟨sys.w.revc, mt⟩ ∧
      sys'.tr = sys.tr ++ [Ev.upload p] := by
  unfold upload at h
  cases hd : alookup sys.w.disk p <;> simp only [hd] at h
  · simp at h
  · simp only [Prod.mk.injEq] at h
    refine ⟨_, rfl, ?_, ?_, ?_, ?_, ?_, ?_⟩ <;> rw [← h.1]

theorem upload_failure (sys sys' : Sys) (p : String) (er : Err)
    (h : upload sys p = (sys', some er)) :
    alookup sys.w.disk p = none ∧ sys' = { sys with tr := sys.tr ++ [Ev.upload p] } := by
  unfold upload at h
  cases hd : alookup sys.w.disk p <;> simp only [hd] at h
  · simp only [Prod.mk.injEq] at h
    exact ⟨rfl, h.1.symm⟩
  · simp at h

/-- A successful download, described pointwise. -/
theorem download_remote_success (sys sys' : Sys) (p : String)
    (h : download_remote sys p = (sys', none)) :
    ∃ r, remoteRev sys.w.remote p = some r ∧
      sys'.w.remote = sys.w.remote ∧
      sys'.w.disk = aset sys.w.disk p sys.w.clock ∧
      sys'.w.revc = sys.w.revc ∧
      sys'.st.local_files = aset sys.st.local_files p ⟨r, sys.w.clock⟩ ∧
      sys'.st.remote_files = aset sys.st.remote_files p ⟨r, sys.w.clock⟩ ∧
      sys'.tr = sys.tr ++ [Ev.download p] := by
  unfold download_remote at h
  simp only [download_prep_remote, download_prep_disk, download_prep_clock,
    download_prep_revc, download_prep_st, download_prep_tr] at h
  cases hr : remoteRev sys.w.remote p <;> simp only [hr] at h
  · simp at h
  · simp only [Prod.mk.injEq] at h
    refine ⟨_, rfl, ?_, ?_, ?_, ?_, ?_, ?_⟩ <;> rw [← h.1]

theorem download_remote_failure (sys sys' : Sys) (p : String) (er : Err)
    (h : download_remote sys p = (sys', some er)) :
    remoteRev sys.w.remote p = none ∧ sys' = download_prep sys p := by
  unfold download_remote at h
  simp only [download_prep_remote] at h
  cases hr : remoteRev sys.w.remote p <;> simp only [hr] at h
  · simp only [Prod.mk.injEq] at h
    exact ⟨rfl, h.1.symm⟩
  · simp at h

/-- `delete_local` / `delete_remote` state effect: the primitive outcome is
discarded by the `try ... except: pass`, then the two `del`s run. -/
theorem delete_local_prim_effect (res : Except PrimErr Unit) (st : DropboxState) (p : String) :
    delete_local_prim res st p =
      if (alookup st.local_files p).isSome then
        if (alookup st.remote_files p).isSome then
          (⟨adel st.local_files p, adel st.remote_files p⟩, none)
        else (⟨adel st.local_files p, st.remote_files⟩, some .keyError)
      else (st, some .keyError) := by
  cases res
  all_goals
    unfold delete_local_prim
    dsimp only

theorem delete_remote_prim_effect (res : Except PrimErr Unit) (st : DropboxState) (p : String) :
    delete_remote_prim res st p =
      if (alookup st.local_files p).isSome then
        if (alookup st.remote_files p).isSome then
          (⟨adel st.local_files p, adel st.remote_files p⟩, none)
        else (⟨adel st.local_files p, st.remote_files⟩, some .keyError)
      else (st, some .keyError) := by
  cases res
  all_goals
    unfold delete_remote_prim
    dsimp only

theorem delete_local_parts (sys : Sys) (p : String) :
    delete_local sys p =
      ({ w := { sys.w with disk := (os_remove sys.w.disk p).1 }
         st := (delete_local_prim (os_remove sys.w.disk p).2 sys.st p).1
         tr := sys.tr ++ [Ev.delLocal p] },
       (delete_local_prim (os_remove sys.w.disk p).2 sys.st p).2) := rfl

theorem delete_remote_parts (sys : Sys) (p : String) :
    delete_remote sys p =
      ({ w := { sys.w with remote := (dbx_files_delete sys.w.remote p).1 }
         st := (delete_remote_prim (dbx_files_delete sys.w.remote p).2 sys.st p).1
         tr := sys.tr ++ [Ev.delRemote p] },
       (delete_remote_prim (dbx_files_delete sys.w.remote p).2 sys.st p).2) := rfl

theorem os_remove_lookup (d : List (String × Nat)) (p q : String) :
    alookup (os_remove d p).1 q = if p = q then none else alookup d q := by
  unfold os_remove
  split
  · simp [alookup_adel]
  · next hn =>
    by_cases h : p = q
    · subst h
      simp only [if_pos rfl]
      simpa using hn
    · simp [h]

/-! ### Claim theorems: remote and local transfer decisions -/

/-- **C1**: during the remote pass, a `RemoteFile` entry is downloaded when
its path is not a key of `local_files`, or when its revision differs from
the recorded one; with an equal revision nothing happens for that path
(its path is only added to the seen set), whatever the recorded
modification time is. -/
theorem remote_entry_transfer_decision (sys : Sys) (seen : List String)
    (p : String) (r : Nat) :
    (alookup sys.st.local_files p = none →
      (process_entry (sys, seen) (RemoteEntry.file p r)).1.1.tr =
        sys.tr ++ [Ev.download p]) ∧
    (∀ m, alookup sys.st.local_files p = some m → r ≠ m.rev →
      (process_entry (sys, seen) (RemoteEntry.file p r)).1.1.tr =
        sys.tr ++ [Ev.download p]) ∧
    (∀ m, alookup sys.st.local_files p = some m → r = m.rev →
      process_entry (sys, seen) (RemoteEntry.file p r) = ((sys, addSeen seen p), none)) := by
  refine ⟨?_, ?_, ?_⟩
  · intro h
    have htr := download_remote_tr sys p
    unfold process_entry
    simp only [h]
    cases h2 : (download_remote sys p).2 <;> simp [h2, htr]
  · intro m h hne
    have htr := download_remote_tr sys p
    unfold process_entry
    simp only [h]
    rw [if_pos hne]
    cases h2 : (download_remote sys p).2 <;> simp [h2, htr]
  · intro m h hrev
    unfold process_entry
    simp only [h]
    rw [if_neg (not_not_intro hrev)]

theorem remote_entry_transfer_decision_witness :
    (process_entry (⟨⟨[RemoteEntry.file "a" 3], [], [], 0, 0⟩, ⟨[], []⟩, []⟩, [])
        (RemoteEntry.file "a" 3)).1.1.tr = [] ++ [Ev.download "a"] :=
  (remote_entry_transfer_decision ⟨⟨[RemoteEntry.file "a" 3], [], [], 0, 0⟩, ⟨[], []⟩, []⟩
    [] "a" 3).1 rfl

/-- **C2**: during the local pass, a scanned path is uploaded when it is
not a key of `remote_files`, or when its current modification time is
strictly greater than the recorded `local_files` modification time;
otherwise nothing happens (in particular, when the path is tracked
remotely but absent from `local_files`, the lookup raises and no upload is
printed). -/
theorem local_scan_upload_decision (sys : Sys) (p : String) :
    (alookup sys.st.remote_files p = none →
      (check_state sys p).1.tr = sys.tr ++ [Ev.upload p]) ∧
    (∀ mt m, (alookup sys.st.remote_files p).isSome →
      alookup sys.w.disk p = some mt → alookup sys.st.local_files p = some m →
      m.modified < mt → (check_state sys p).1.tr = sys.tr ++ [Ev.upload p]) ∧
    (∀ mt m, (alookup sys.st.remote_files p).isSome →
      alookup sys.w.disk p = some mt → alookup sys.st.local_files p = some m →
      ¬ m.modified < mt → check_state sys p = (sys, none)) ∧
    ((alookup sys.st.remote_files p).isSome → alookup sys.st.local_files p = none →
      (check_state sys p).1.tr = sys.tr) := by
  refine ⟨?_, ?_, ?_, ?_⟩
  · intro h
    unfold check_state
    simp [h, upload_tr]
  · intro mt m hs hd hm hlt
    obtain ⟨mr, hmr⟩ := Option.isSome_iff_exists.mp hs
    unfold check_state
    simp [hmr, hd, hm, hlt, upload_tr]
  · intro mt m hs hd hm hge
    obtain ⟨mr, hmr⟩ := Option.isSome_iff_exists.mp hs
    unfold check_state
    simp [hmr, hd, hm, hge]
  · intro hs hl
    obtain ⟨mr, hmr⟩ := Option.isSome_iff_exists.mp hs
    unfold check_state
    cases hd : alookup sys.w.disk p <;> simp [hmr, hd, hl]

theorem local_scan_upload_decision_witness :
    alookup (⟨[], []⟩ : DropboxState).remote_files "a" = none ∧
    (check_state ⟨⟨[], [("a", 1)], [], 0, 0⟩, ⟨[], []⟩, []⟩ "a").1.tr =
      [] ++ [Ev.upload "a"] :=
  ⟨rfl, (local_scan_upload_decision ⟨⟨[], [("a", 1)], [], 0, 0⟩, ⟨[], []⟩, []⟩ "a").1 rfl⟩

/-! ### Claim theorems: deletion operations -/

/-- A path is tracked in exactly one of the two state maps. -/
def inExactlyOneMap (st : DropboxState) (p : String) : Prop :=
  ((alookup st.local_files p).isSome ∧ alookup st.remote_files p = none) ∨
  (alookup st.local_files p = none ∧ (alookup st.remote_files p).isSome)

/-- **C6**: a deletion operation that returns leaves the path in neither
map, and a deletion operation never creates a configuration in which the
path sits in exactly one of the two maps. -/
theorem deletion_removes_from_both_maps (sys sys' : Sys) (p : String) :
    ((delete_local sys p = (sys', none) →
        alookup sys'.st.local_files p = none ∧
        alookup sys'.st.remote_files p = none) ∧
     (delete_remote sys p = (sys', none) →
        alookup sys'.st.local_files p = none ∧
        alookup sys'.st.remote_files p = none)) ∧
    (¬ inExactlyOneMap sys.st p →
      ¬ inExactlyOneMap (delete_local sys p).1.st p ∧
      ¬ inExactlyOneMap (delete_remote sys p).1.st p) := by
  have hl := delete_local_parts sys p
  have hr := delete_remote_parts sys p
  have hpl := delete_local_prim_effect (os_remove sys.w.disk p).2 sys.st p
  have hpr := delete_remote_prim_effect (dbx_files_delete sys.w.remote p).2 sys.st p
  constructor
  · constructor
    · intro h
      rw [hl, hpl] at h
      split at h
      · split at h
        · simp only [Prod.mk.injEq] at h
          rw [← h.1]
          simp [alookup_adel]
        · simp at h
      · simp at h
    · intro h
      rw [hr, hpr] at h
      split at h
      · split at h
        · simp only [Prod.mk.injEq] at h
          rw [← h.1]
          simp [alookup_adel]
        · simp at h
      · simp at h
  · intro hone
    constructor
    · rw [hl, hpl]
      split
      · next h1 =>
        split
        · simp [inExactlyOneMap, alookup_adel]
        · next h2 =>
          exact absurd (Or.inl ⟨h1, Option.not_isSome_iff_eq_none.mp h2⟩) hone
      · next h1 =>
        by_cases h2 : (alookup sys.st.remote_files p).isSome
        · exact absurd (Or.inr ⟨Option.not_isSome_iff_eq_none.mp h1, h2⟩) hone
        · intro hc
          rcases hc with ⟨ha, _⟩ | ⟨_, hb⟩
          · exact h1 ha
          · exact h2 hb
    · rw [hr, hpr]
      split
      · next h1 =>
        split
        · simp [inExactlyOneMap, alookup_adel]
        · next h2 =>
          exact absurd (Or.inl ⟨h1, Option.not_isSome_iff_eq_none.mp h2⟩) hone
      · next h1 =>
        by_cases h2 : (alookup sys.st.remote_files p).isSome
        · exact absurd (Or.inr ⟨Option.not_isSome_iff_eq_none.mp h1, h2⟩) hone
        · intro hc
          rcases hc with ⟨ha, _⟩ | ⟨_, hb⟩
          · exact h1 ha
          · exact h2 hb

theorem deletion_removes_from_both_maps_witness :
    delete_local ⟨⟨[], [("a", 0)], [], 0, 0⟩, ⟨[("a", ⟨1, 2⟩)], [("a", ⟨1, 2⟩)]⟩, []⟩ "a" =
      (⟨⟨[], [], [], 0, 0⟩, ⟨[], []⟩, [Ev.delLocal "a"]⟩, none) ∧
    alookup (⟨[], []⟩ : DropboxState).local_files "a" = none ∧
    alookup (⟨[], []⟩ : DropboxState).remote_files "a" = none := by
  refine ⟨by decide, ?_⟩
  exact ((deletion_removes_from_both_maps
    ⟨⟨[], [("a", 0)], [], 0, 0⟩, ⟨[("a", ⟨1, 2⟩)], [("a", ⟨1, 2⟩)]⟩, []⟩
    ⟨⟨[], [], [], 0, 0⟩, ⟨[], []⟩, [Ev.delLocal "a"]⟩ "a").1.1 (by decide))

/-- **C7 counterexample**: a `permission` failure of the removal/deletion
primitive is swallowed by the bare `except: pass`, the operation finishes
without raising and still removes the path from both maps, contradicting
the claim that non-absence failures propagate. -/
theorem delete_failure_suppressed_counterexample :
    (delete_local_prim (Except.error PrimErr.permission)
        ⟨[("a", ⟨0, 0⟩)], [("a", ⟨0, 0⟩)]⟩ "a").2 = none ∧
    (delete_remote_prim (Except.error PrimErr.permission)
        ⟨[("a", ⟨0, 0⟩)], [("a", ⟨0, 0⟩)]⟩ "a").2 = none ∧
    (delete_local_prim (Except.error PrimErr.permission)
        ⟨[("a", ⟨0, 0⟩)], [("a", ⟨0, 0⟩)]⟩ "a").1 = ⟨[], []⟩ := by
  exact ⟨rfl, rfl, by decide⟩

/-- **C7 amended**: both deletion operations ignore the outcome of the
underlying removal/deletion primitive entirely - absence and every other
failure alike are treated as success, and the map removals proceed
regardless. -/
theorem delete_primitive_outcome_ignored (res : Except PrimErr Unit)
    (st : DropboxState) (p : String) :
    delete_local_prim res st p = delete_local_prim (Except.ok ()) st p ∧
    delete_remote_prim res st p = delete_remote_prim (Except.ok ()) st p := by
  cases res <;> exact ⟨rfl, rfl⟩

/-! ### Claim theorems: folder conflicts, persistence, the map invariant -/

/-- **C8** (code bug): with a remote folder entry at a path occupied by a
local file, the remote pass does nothing at all - the
`if not os.path.exists(path)` guard at line 199 skips `make_local_dir`, so
the file is neither deleted nor replaced by a directory; and
`make_local_dir` itself, called on such a path, deletes the file and the
`local_files` entry and then raises `AttributeError` at the nonexistent
`os.makedir` (line 135), never creating the directory. -/
theorem remote_folder_file_conflict_behavior :
    (execute_delta ⟨⟨[RemoteEntry.folder "d"], [("d", 7)], [], 0, 0⟩, ⟨[], []⟩, []⟩ =
      (⟨⟨[RemoteEntry.folder "d"], [("d", 7)], [], 0, 0⟩, ⟨[], []⟩, []⟩, none)) ∧
    (make_local_dir ⟨⟨[RemoteEntry.folder "d"], [("d", 7)], [], 0, 0⟩,
        ⟨[("d", ⟨1, 1⟩)], [("d", ⟨1, 1⟩)]⟩, []⟩ "d" =
      (⟨⟨[RemoteEntry.folder "d"], [], [], 0, 0⟩, ⟨[], [("d", ⟨1, 1⟩)]⟩, []⟩,
        some Err.attrError)) := by
  exact ⟨by decide, by decide⟩

/-- **C9 counterexample**: it is not the case that every intermediate
on-disk content during `save_state` equals the previous or the new
serialized state: with previous serialized bytes `[1]` and new bytes `[2]`,
the trajectory passes through the truncated (empty) file. -/
theorem save_state_atomicity_counterexample :
    ¬ ∀ c ∈ save_state_trajectory [2], c = [1] ∨ c = [2] := by decide

/-- **C9 amended**: `save_state` rewrites the state file in place
(`open(STATE_FILE, 'w')` truncates, then `pickle.dump` writes), so whenever
the previous and the new serialized states are nonempty there is an
intermediate point - the truncated, empty file - that is neither of them:
a crash there loses the previous valid state, and the save is not
crash-atomic. -/
theorem save_state_truncates_in_place (prev new : List Nat)
    (h1 : prev ≠ []) (h2 : new ≠ []) :
    ∃ c ∈ save_state_trajectory new, c ≠ prev ∧ c ≠ new :=
  ⟨[], by simp [save_state_trajectory], fun h => h1 h.symm, fun h => h2 h.symm⟩

theorem save_state_truncates_in_place_witness :
    ([1] : List Nat) ≠ [] ∧ ([2] : List Nat) ≠ [] ∧
    ∃ c ∈ save_state_trajectory [2], c ≠ [1] ∧ c ≠ [2] :=
  ⟨by decide, by decide, save_state_truncates_in_place [1] [2] (by decide) (by decide)⟩

/-- `local_files ⊆ remote_files` on keys. -/
def localSubsetRemote (st : DropboxState) : Prop :=
  ∀ p, (alookup st.local_files p).isSome → (alookup st.remote_files p).isSome

theorem localSubsetRemote_aset (st : DropboxState) (p : String) (meta : FileMeta)
    (h : localSubsetRemote st) :
    localSubsetRemote ⟨aset st.local_files p meta, aset st.remote_files p meta⟩ := by
  intro q hq
  dsimp only at hq ⊢
  rw [alookup_aset] at hq ⊢
  by_cases hpq : p = q
  · simp [hpq]
  · simp only [if_neg hpq] at hq ⊢
    exact h q hq

theorem localSubsetRemote_adel (st : DropboxState) (p : String)
    (h : localSubsetRemote st) :
    localSubsetRemote ⟨adel st.local_files p, adel st.remote_files p⟩ ∧
    localSubsetRemote ⟨adel st.local_files p, st.remote_files⟩ := by
  constructor <;> intro q hq <;> dsimp only at hq ⊢ <;> rw [alookup_adel] at hq
  · rw [alookup_adel]
    by_cases hpq : p = q
    · simp [hpq] at hq
    · simp only [if_neg hpq] at hq ⊢
      exact h q hq
  · by_cases hpq : p = q
    · simp [hpq] at hq
    · simp only [if_neg hpq] at hq
      exact h q hq

/-- **C10**: every configuration reachable from the empty state by the five
map-touching operations keeps the keys of `local_files` a subset of the
keys of `remote_files`; the reverse inclusion fails on a reachable
configuration, because the file-conflict branch of `make_local_dir` removes
the path from `local_files` only. -/
theorem reachable_local_subset_remote :
    (∀ sys, ReachableState sys → localSubsetRemote sys.st) ∧
    (∃ sys, ReachableState sys ∧ ∃ p,
      (alookup sys.st.remote_files p).isSome ∧
      ¬ (alookup sys.st.local_files p).isSome) := by
  constructor
  · intro sys hreach
    induction hreach with
    | base w tr =>
      intro p hp
      simp [alookup] at hp
    | step sys1 o hprev ih =>
      cases o with
      | upload p =>
        show localSubsetRemote (upload sys1 p).1.st
        rcases h2 : upload sys1 p with ⟨s', e⟩
        cases e with
        | none =>
          obtain ⟨mt, _, _, _, _, hl, hr, _⟩ := upload_success sys1 s' p h2
          intro q hq
          rw [hl, alookup_aset] at hq
          rw [hr, alookup_aset]
          by_cases hpq : p = q
          · simp [hpq]
          · simp only [if_neg hpq] at hq ⊢
            exact ih q hq
        | some er =>
          obtain ⟨_, hs⟩ := upload_failure sys1 s' p er h2
          subst hs
          exact ih
      | download p =>
        show localSubsetRemote (download_remote sys1 p).1.st
        rcases h2 : download_remote sys1 p with ⟨s', e⟩
        cases e with
        | none =>
          obtain ⟨r, _, _, _, _, hl, hr, _⟩ := download_remote_success sys1 s' p h2
          intro q hq
          rw [hl, alookup_aset] at hq
          rw [hr, alookup_aset]
          by_cases hpq : p = q
          · simp [hpq]
          · simp only [if_neg hpq] at hq ⊢
            exact ih q hq
        | some er =>
          obtain ⟨_, hs⟩ := download_remote_failure sys1 s' p er h2
          subst hs
          simpa using ih
      | delLocal p =>
        show localSubsetRemote (delete_local sys1 p).1.st
        rw [delete_local_parts, delete_local_prim_effect]
        dsimp only
        split
        · split
          · exact (localSubsetRemote_adel sys1.st p ih).1
          · exact (localSubsetRemote_adel sys1.st p ih).2
        · exact ih
      | delRemote p =>
        show localSubsetRemote (delete_remote sys1 p).1.st
        rw [delete_remote_parts, delete_remote_prim_effect]
        dsimp only
        split
        · split
          · exact (localSubsetRemote_adel sys1.st p ih).1
          · exact (localSubsetRemote_adel sys1.st p ih).2
        · exact ih
      | mkdir p =>
        show localSubsetRemote (make_local_dir sys1 p).1.st
        unfold make_local_dir
        split
        · exact ih
        · dsimp only
          split
          · split
            · exact (localSubsetRemote_adel sys1.st p ih).2
            · exact ih
          · exact ih
  · refine ⟨applyOp (applyOp ⟨⟨[], [("a", 0)], [], 0, 0⟩, ⟨[], []⟩, []⟩
        (Op.upload "a")) (Op.mkdir "a"),
      ReachableState.step _ _ (ReachableState.step _ _ (ReachableState.base _ _)),
      "a", ?_, ?_⟩ <;> decide

theorem reachable_local_subset_remote_witness :
    localSubsetRemote (⟨⟨[], [], [], 0, 0⟩, ⟨[], []⟩, []⟩ : Sys).st :=
  reachable_local_subset_remote.1 _ (ReachableState.base ⟨[], [], [], 0, 0⟩ [])

/-! ### Claim theorems: the upload request protocol -/

/-- Well-formed continuation of a chunked upload session whose cursor
offset currently stands at `c`: zero or more 10 MB appends whose cursor
offsets grow by exactly the length of each chunk sent, closed by a finish
request carrying the final short chunk, the cursor, the destination path
`'/' + path` and the overwrite write mode. -/
inductive ChunkTail (path : String) : Nat → List UploadReq → Prop where
  | finish (d c : Nat) : d < 10000000 →
      ChunkTail path c [UploadReq.sessionFinish d (some c) ("/" ++ path) true]
  | append (c : Nat) (rest : List UploadReq) :
      ChunkTail path (c + 10000000) rest →
      ChunkTail path c (UploadReq.sessionAppend 10000000 (some c) false :: rest)

theorem uploadChunkLoop_spec (fuel : Nat) :
    ∀ remaining dataLen offset path, remaining + 20000000 ≤ 10000000 * fuel →
      dataLen ≤ 10000000 →
      ∃ evs, uploadChunkLoop fuel remaining dataLen true (some offset) offset path =
          some evs ∧ ChunkTail path offset evs := by
  induction fuel with
  | zero => intro remaining _ _ _ hle _; omega
  | succ f ih =>
    intro remaining dataLen offset path hle hdl
    by_cases hd : dataLen < 10000000
    · exact ⟨_, by rw [uploadChunkLoop, if_pos hd], ChunkTail.finish dataLen offset hd⟩
    · have hdl10 : dataLen = 10000000 := by omega
      subst hdl10
      rw [uploadChunkLoop, if_neg hd]
      dsimp only
      by_cases hrem : 10000000 ≤ remaining
      · have hmin : min 10000000 remaining = 10000000 := Nat.min_eq_left hrem
        rw [hmin]
        obtain ⟨evs, heq, hct⟩ := ih (remaining - 10000000) 10000000
          (offset + 10000000) path (by omega) (le_refl _)
        refine ⟨_, by rw [heq]; rfl, ?_⟩
        exact ChunkTail.append offset _ hct
      · have hmin : min 10000000 remaining = remaining :=
          Nat.min_eq_right (by omega)
        rw [hmin]
        have hf : 1 ≤ f := by omega
        obtain ⟨g, hg⟩ := Nat.exists_eq_add_of_le hf
        subst hg
        rw [Nat.sub_self]
        rw [show (1 + g) = g + 1 by omega]
        rw [uploadChunkLoop, if_pos (by omega : remaining < 10000000)]
        exact ⟨_, rfl, ChunkTail.append offset _
          (ChunkTail.finish remaining (offset + 10000000) (by omega))⟩

/-- **C4**: `upload` branches on the file size against the large-file
threshold (a constant inside the 128-140 MB range).  Above it, the request
sequence is a session start with the first fixed 10 MB chunk followed by a
`ChunkTail`: 10 MB appends whose byte offsets grow monotonically by the
length of each chunk sent, then a session finish with the final (possibly
short) chunk and a commit carrying `'/' + path` and overwrite mode.  At or
below it, one single-shot `files_upload` of the whole content with
overwrite mode. -/
theorem upload_size_branches (size : Nat) (path : String) :
    (large_file_threshold < size →
      ∃ rest, upload_requests size path =
          some (UploadReq.sessionStart 10000000 false :: rest) ∧
        ChunkTail path 10000000 rest) ∧
    (size ≤ large_file_threshold →
      upload_requests size path =
        some [UploadReq.filesUpload size ("/" ++ path) true]) ∧
    128000000 ≤ large_file_threshold ∧ large_file_threshold ≤ 140000000 := by
  refine ⟨?_, ?_, by norm_num [large_file_threshold], by norm_num [large_file_threshold]⟩
  · intro hbig
    rw [large_file_threshold] at hbig
    unfold upload_requests
    rw [if_pos (by rw [large_file_threshold]; omega)]
    dsimp only
    have hmin : min 10000000 size = 10000000 := Nat.min_eq_left (by omega)
    rw [hmin]
    rw [show size + 2 = (size + 1) + 1 by omega]
    rw [uploadChunkLoop, if_neg (by omega : ¬ (10000000 : Nat) < 10000000)]
    dsimp only
    have hmin2 : min 10000000 (size - 10000000) = 10000000 :=
      Nat.min_eq_left (by omega)
    rw [hmin2]
    obtain ⟨evs, heq, hct⟩ := uploadChunkLoop_spec (size + 1)
      (size - 10000000 - 10000000) 10000000 (0 + 10000000) path (by omega) (le_refl _)
    rw [show (0 + 10000000 : Nat) = 10000000 by omega] at heq hct
    exact ⟨evs, by rw [heq]; rfl, hct⟩
  · intro hsmall
    unfold upload_requests
    rw [if_neg (by omega : ¬ large_file_threshold < size)]

theorem upload_size_branches_witness :
    ∃ rest, upload_requests 150000000 "f" =
        some (UploadReq.sessionStart 10000000 false :: rest) ∧
      ChunkTail "f" 10000000 rest :=
  (upload_size_branches 150000000 "f").1 (by norm_num [large_file_threshold])

/-! ### The remote pass, analysed -/

theorem mem_addSeen (seen : List String) (p q : String) :
    q ∈ addSeen seen p ↔ q ∈ seen ∨ q = p := by
  unfold addSeen
  split
  · next h =>
    constructor
    · exact Or.inl
    · rintro (hq | rfl)
      · exact hq
      · exact h
  · simp [List.mem_append]

theorem make_local_dir_not_exists (sys : Sys) (p : String)
    (h : os_path_exists sys.w p = false) :
    make_local_dir sys p =
      ({ sys with w := { sys.w with dirs := p :: sys.w.dirs } }, none) := by
  unfold make_local_dir
  rw [h]
  rfl

/-- What one successfully processed remote entry does: the listing is
unchanged, the seen set gains exactly a file entry's path, state maps and
disk change only at a file entry's path, and the trace gains only download
or mkdir events. -/
theorem process_entry_success (sys : Sys) (seen : List String) (e : RemoteEntry)
    (sys1 : Sys) (seen1 : List String)
    (h : process_entry (sys, seen) e = ((sys1, seen1), none)) :
    sys1.w.remote = sys.w.remote ∧
    (∀ q, q ∈ seen1 ↔ q ∈ seen ∨ ∃ r, e = .file q r) ∧
    (∀ q, (∀ r, e ≠ .file q r) →
      alookup sys1.st.local_files q = alookup sys.st.local_files q ∧
      alookup sys1.st.remote_files q = alookup sys.st.remote_files q ∧
      alookup sys1.w.disk q = alookup sys.w.disk q) ∧
    (∃ evd, sys1.tr = sys.tr ++ evd ∧
      ∀ ev ∈ evd, (∃ q r, e = .file q r ∧ ev = Ev.download q) ∨ ∃ q, ev = Ev.mkdir q) := by
  cases e with
  | file p r =>
    have hdl : ∀ s', download_remote sys p = (s', none) →
        s'.w.remote = sys.w.remote ∧
        (∀ q, q ≠ p →
          alookup s'.st.local_files q = alookup sys.st.local_files q ∧
          alookup s'.st.remote_files q = alookup sys.st.remote_files q ∧
          alookup s'.w.disk q = alookup sys.w.disk q) ∧
        s'.tr = sys.tr ++ [Ev.download p] := by
      intro s' hs
      obtain ⟨r', _, hrem, hdisk, _, hloc, hrm, htr⟩ :=
        download_remote_success sys s' p hs
      refine ⟨hrem, ?_, htr⟩
      intro q hq
      have hpq : ¬ p = q := fun hh => hq hh.symm
      rw [hloc, hrm, hdisk, alookup_aset, alookup_aset, alookup_aset]
      simp [hpq]
    have hseen : ∀ q, q ∈ addSeen seen p ↔
        q ∈ seen ∨ ∃ r1 : Nat, RemoteEntry.file p r = RemoteEntry.file q r1 := by
      intro q
      rw [mem_addSeen]
      constructor
      · rintro (hq | rfl)
        · exact Or.inl hq
        · exact Or.inr ⟨r, rfl⟩
      · rintro (hq | ⟨r', hr'⟩)
        · exact Or.inl hq
        · cases hr'
          exact Or.inr rfl
    unfold process_entry at h
    dsimp only at h
    cases hm : alookup sys.st.local_files p with
    | none =>
      rw [hm] at h
      dsimp only at h
      rcases h2 : download_remote sys p with ⟨s', e2⟩
      rw [h2] at h
      dsimp only at h
      cases e2 with
      | none =>
        simp only [Prod.mk.injEq] at h
        obtain ⟨⟨h3, h4⟩, _⟩ := h
        subst h3; subst h4
        obtain ⟨ha, hb, hc⟩ := hdl s' h2
        refine ⟨ha, hseen, ?_, [Ev.download p], hc, ?_⟩
        · intro q hq
          exact hb q (fun hh => by cases (hq r) (by rw [hh]))
        · intro ev hev
          rw [List.mem_singleton] at hev
          subst hev
          exact Or.inl ⟨p, r, rfl, rfl⟩
      | some er => simp at h
    | some m =>
      rw [hm] at h
      dsimp only at h
      by_cases hrev : r ≠ m.rev
      · rw [if_pos hrev] at h
        rcases h2 : download_remote sys p with ⟨s', e2⟩
        rw [h2] at h
        dsimp only at h
        cases e2 with
        | none =>
          simp only [Prod.mk.injEq] at h
          obtain ⟨⟨h3, h4⟩, _⟩ := h
          subst h3; subst h4
          obtain ⟨ha, hb, hc⟩ := hdl s' h2
          refine ⟨ha, hseen, ?_, [Ev.download p], hc, ?_⟩
          · intro q hq
            exact hb q (fun hh => by cases (hq r) (by rw [hh]))
          · intro ev hev
            rw [List.mem_singleton] at hev
            subst hev
            exact Or.inl ⟨p, r, rfl, rfl⟩
        | some er => simp at h
      · rw [if_neg hrev] at h
        simp only [Prod.mk.injEq] at h
        obtain ⟨⟨h3, h4⟩, _⟩ := h
        subst h3; subst h4
        exact ⟨rfl, hseen, fun q _ => ⟨rfl, rfl, rfl⟩, [], by simp, by simp⟩
  | folder p =>
    unfold process_entry at h
    dsimp only at h
    by_cases hex : os_path_exists sys.w p = false
    · rw [if_pos (by rw [hex]; rfl)] at h
      rw [make_local_dir_not_exists { sys with tr := sys.tr ++ [Ev.mkdir p] } p hex] at h
      dsimp only at h
      simp only [Prod.mk.injEq] at h
      obtain ⟨⟨h3, h4⟩, _⟩ := h
      subst h3; subst h4
      refine ⟨rfl, by simp, fun q _ => ⟨rfl, rfl, rfl⟩, [Ev.mkdir p], rfl, ?_⟩
      intro ev hev
      rw [List.mem_singleton] at hev
      subst hev
      exact Or.inr ⟨p, rfl⟩
    · rw [if_neg (by simpa using hex)] at h
      simp only [Prod.mk.injEq] at h
      obtain ⟨⟨h3, h4⟩, _⟩ := h
      subst h3; subst h4
      exact ⟨rfl, by simp, fun q _ => ⟨rfl, rfl, rfl⟩, [], by simp, by simp⟩

/-- What a successfully processed listing does, accumulated over
`process_entry_success`. -/
theorem process_remote_entries_success (es : List RemoteEntry) :
    ∀ sys seen sys' seen',
      process_remote_entries es (sys, seen) = ((sys', seen'), none) →
      sys'.w.remote = sys.w.remote ∧
      (∀ q, q ∈ seen' ↔ q ∈ seen ∨ q ∈ filePaths es) ∧
      (∀ q, q ∉ filePaths es →
        alookup sys'.st.local_files q = alookup sys.st.local_files q ∧
        alookup sys'.st.remote_files q = alookup sys.st.remote_files q ∧
        alookup sys'.w.disk q = alookup sys.w.disk q) ∧
      (∃ evd, sys'.tr = sys.tr ++ evd ∧
        ∀ ev ∈ evd, (∃ q, ev = Ev.download q ∧ q ∈ filePaths es) ∨
          ∃ q, ev = Ev.mkdir q) := by
  induction es with
  | nil =>
    intro sys seen sys' seen' h
    unfold process_remote_entries at h
    simp only [Prod.mk.injEq] at h
    obtain ⟨⟨h1, h2⟩, _⟩ := h
    subst h1; subst h2
    exact ⟨rfl, by simp [filePaths], fun q _ => ⟨rfl, rfl, rfl⟩, [], by simp, by simp⟩
  | cons e rest ih =>
    intro sys seen sys' seen' h
    unfold process_remote_entries at h
    rcases h1 : process_entry (sys, seen) e with ⟨⟨sysm, seenm⟩, em⟩
    rw [h1] at h
    cases em with
    | none =>
      dsimp only at h
      obtain ⟨ha, hb, hc, evd1, hd, he⟩ := process_entry_success sys seen e sysm seenm h1
      obtain ⟨ha', hb', hc', evd2, hd', he'⟩ := ih sysm seenm sys' seen' h
      have hfp : ∀ q, q ∈ filePaths (e :: rest) ↔
          (∃ r, e = RemoteEntry.file q r) ∨ q ∈ filePaths rest := by
        intro q
        cases e with
        | file p r =>
          simp only [filePaths, List.mem_cons]
          constructor
          · rintro (rfl | hq)
            · exact Or.inl ⟨r, rfl⟩
            · exact Or.inr hq
          · rintro (⟨r', hr'⟩ | hq)
            · cases hr'
              exact Or.inl rfl
            · exact Or.inr hq
        | folder p =>
          simp only [filePaths]
          constructor
          · exact Or.inr
          · rintro (⟨r', hr'⟩ | hq)
            · cases hr'
            · exact hq
      refine ⟨ha'.trans ha, ?_, ?_, evd1 ++ evd2, by rw [hd', hd, List.append_assoc], ?_⟩
      · intro q
        rw [hb' q, hb q, hfp q]
        tauto
      · intro q hq
        rw [hfp q] at hq
        have hq1 : ∀ r, e ≠ RemoteEntry.file q r := fun r hr => hq (Or.inl ⟨r, hr⟩)
        have hq2 : q ∉ filePaths rest := fun hmem => hq (Or.inr hmem)
        obtain ⟨c1, c2, c3⟩ := hc q hq1
        obtain ⟨c1', c2', c3'⟩ := hc' q hq2
        exact ⟨c1'.trans c1, c2'.trans c2, c3'.trans c3⟩
      · intro ev hev
        rw [List.mem_append] at hev
        cases hev with
        | inl hev1 =>
          rcases he ev hev1 with ⟨q, r, he1, he2⟩ | ⟨q, he1⟩
          · refine Or.inl ⟨q, he2, ?_⟩
            rw [hfp q]
            exact Or.inl ⟨r, he1⟩
          · exact Or.inr ⟨q, he1⟩
        | inr hev2 =>
          rcases he' ev hev2 with ⟨q, he1, he2⟩ | ⟨q, he1⟩
          · refine Or.inl ⟨q, he1, ?_⟩
            rw [hfp q]
            exact Or.inr he2
          · exact Or.inr ⟨q, he1⟩
    | some er =>
      dsimp only at h
      simp at h

theorem delete_local_success_effect (sys : Sys) (p : String)
    (hl : (alookup sys.st.local_files p).isSome)
    (hr : (alookup sys.st.remote_files p).isSome) :
    delete_local sys p =
      ({ w := { sys.w with disk := (os_remove sys.w.disk p).1 }
         st := ⟨adel sys.st.local_files p, adel sys.st.remote_files p⟩
         tr := sys.tr ++ [Ev.delLocal p] }, none) := by
  rw [delete_local_parts, delete_local_prim_effect, if_pos hl, if_pos hr]

/-- The deletion sweep of `execute_delta` always completes when it starts
from the keys of `remote_files`, and it deletes exactly the paths of the
key snapshot that were not seen in the listing and are in `local_files`;
everything else - maps, disk, listing - is untouched. -/
theorem delete_sweep_spec (ks : List String) :
    ∀ seen sys,
      (∀ q ∈ ks, (alookup sys.st.local_files q).isSome →
        (alookup sys.st.remote_files q).isSome) →
      ∃ (sys' : Sys) (del : List String), delete_sweep ks seen sys = (sys', none) ∧
        sys'.tr = sys.tr ++ del.map Ev.delLocal ∧
        (∀ q, q ∈ del ↔ q ∈ ks ∧ q ∉ seen ∧ (alookup sys.st.local_files q).isSome) ∧
        (∀ q, q ∈ ks → q ∉ seen → (alookup sys.st.local_files q).isSome →
          alookup sys'.st.local_files q = none ∧
          alookup sys'.st.remote_files q = none ∧
          alookup sys'.w.disk q = none) ∧
        (∀ q, ¬(q ∈ ks ∧ q ∉ seen ∧ (alookup sys.st.local_files q).isSome) →
          alookup sys'.st.local_files q = alookup sys.st.local_files q ∧
          alookup sys'.st.remote_files q = alookup sys.st.remote_files q ∧
          alookup sys'.w.disk q = alookup sys.w.disk q) ∧
        sys'.w.remote = sys.w.remote := by
  induction ks with
  | nil =>
    intro seen sys _
    exact ⟨sys, [], rfl, by simp, by simp, by simp, fun q _ => ⟨rfl, rfl, rfl⟩, rfl⟩
  | cons p ps ih =>
    intro seen sys hkr
    unfold delete_sweep
    by_cases hseen : p ∈ seen
    · rw [if_neg (not_not_intro hseen)]
      obtain ⟨sys', del, h1, h2, h3, h4, h5, h6⟩ :=
        ih seen sys (fun q hq => hkr q (List.mem_cons_of_mem p hq))
      refine ⟨sys', del, h1, h2, ?_, ?_, ?_, h6⟩
      · intro q
        rw [h3 q]
        constructor
        · rintro ⟨hq1, hq2, hq3⟩
          exact ⟨List.mem_cons_of_mem p hq1, hq2, hq3⟩
        · rintro ⟨hq1, hq2, hq3⟩
          rcases List.mem_cons.mp hq1 with rfl | hq1'
          · exact absurd hseen hq2
          · exact ⟨hq1', hq2, hq3⟩
      · intro q hq1 hq2 hq3
        rcases List.mem_cons.mp hq1 with rfl | hq1'
        · exact absurd hseen hq2
        · exact h4 q hq1' hq2 hq3
      · intro q hq
        refine h5 q ?_
        rintro ⟨hq1, hq2, hq3⟩
        exact hq ⟨List.mem_cons_of_mem p hq1, hq2, hq3⟩
    · rw [if_pos hseen]
      by_cases hloc : (alookup sys.st.local_files p).isSome
      · rw [if_pos hloc]
        have hrem := hkr p (List.mem_cons_self p ps) hloc
        rw [delete_local_success_effect sys p hloc hrem]
        dsimp only
        set sysd : Sys :=
          { w := { sys.w with disk := (os_remove sys.w.disk p).1 }
            st := ⟨adel sys.st.local_files p, adel sys.st.remote_files p⟩
            tr := sys.tr ++ [Ev.delLocal p] } with hsysd
        have hld : ∀ q, alookup sysd.st.local_files q =
            if p = q then none else alookup sys.st.local_files q := by
          intro q; rw [hsysd]; exact alookup_adel _ _ _
        have hrd : ∀ q, alookup sysd.st.remote_files q =
            if p = q then none else alookup sys.st.remote_files q := by
          intro q; rw [hsysd]; exact alookup_adel _ _ _
        have hdd : ∀ q, alookup sysd.w.disk q =
            if p = q then none else alookup sys.w.disk q := by
          intro q; rw [hsysd]; exact os_remove_lookup _ _ _
        have hkr2 : ∀ q ∈ ps, (alookup sysd.st.local_files q).isSome →
            (alookup sysd.st.remote_files q).isSome := by
          intro q hq hq2
          rw [hld q] at hq2
          rw [hrd q]
          by_cases hpq : p = q
          · simp [hpq] at hq2
          · rw [if_neg hpq] at hq2 ⊢
            exact hkr q (List.mem_cons_of_mem p hq) hq2
        obtain ⟨sys', del, h1, h2, h3, h4, h5, h6⟩ := ih seen sysd hkr2
        refine ⟨sys', p :: del, h1, ?_, ?_, ?_, ?_, by rw [h6, hsysd]⟩
        · rw [h2, hsysd]
          simp [List.append_assoc]
        · intro q
          constructor
          · intro hq
            rcases List.mem_cons.mp hq with heq | hqdel
            · rw [heq]
              exact ⟨List.mem_cons_self p ps, hseen, hloc⟩
            · obtain ⟨hq1, hq2, hq3⟩ := (h3 q).mp hqdel
              rw [hld q] at hq3
              by_cases hpq : p = q
              · simp [hpq] at hq3
              · rw [if_neg hpq] at hq3
                exact ⟨List.mem_cons_of_mem p hq1, hq2, hq3⟩
          · rintro ⟨hq1, hq2, hq3⟩
            by_cases hpq : p = q
            · exact List.mem_cons.mpr (Or.inl hpq.symm)
            · rcases List.mem_cons.mp hq1 with heq | hq1'
              · exact absurd heq.symm hpq
              · refine List.mem_cons.mpr (Or.inr ((h3 q).mpr ⟨hq1', hq2, ?_⟩))
                rw [hld q, if_neg hpq]
                exact hq3
        · intro q hq1 hq2 hq3
          by_cases hpq : p = q
          · subst hpq
            by_cases hdel : p ∈ ps ∧ p ∉ seen ∧ (alookup sysd.st.local_files p).isSome
            · obtain ⟨c1, c2, c3⟩ := h4 p hdel.1 hdel.2.1 hdel.2.2
              exact ⟨c1, c2, c3⟩
            · obtain ⟨c1, c2, c3⟩ := h5 p hdel
              rw [c1, c2, c3, hld p, hrd p, hdd p]
              simp
          · rcases List.mem_cons.mp hq1 with rfl | hq1'
            · exact absurd rfl hpq
            · have hq3' : (alookup sysd.st.local_files q).isSome := by
                rw [hld q, if_neg hpq]; exact hq3
              exact h4 q hq1' hq2 hq3'
        · intro q hq
          have hpq : ¬ p = q := by
            rintro rfl
            exact hq ⟨List.mem_cons_self p ps, hseen, hloc⟩
          have hq' : ¬(q ∈ ps ∧ q ∉ seen ∧ (alookup sysd.st.local_files q).isSome) := by
            rintro ⟨hq1, hq2, hq3⟩
            rw [hld q, if_neg hpq] at hq3
            exact hq ⟨List.mem_cons_of_mem p hq1, hq2, hq3⟩
          obtain ⟨c1, c2, c3⟩ := h5 q hq'
          rw [c1, c2, c3, hld q, hrd q, hdd q, if_neg hpq, if_neg hpq, if_neg hpq]
          exact ⟨rfl, rfl, rfl⟩
      · rw [if_neg hloc]
        obtain ⟨sys', del, h1, h2, h3, h4, h5, h6⟩ :=
          ih seen sys (fun q hq => hkr q (List.mem_cons_of_mem p hq))
        refine ⟨sys', del, h1, h2, ?_, ?_, ?_, h6⟩
        · intro q
          rw [h3 q]
          constructor
          · rintro ⟨hq1, hq2, hq3⟩
            exact ⟨List.mem_cons_of_mem p hq1, hq2, hq3⟩
          · rintro ⟨hq1, hq2, hq3⟩
            rcases List.mem_cons.mp hq1 with rfl | hq1'
            · exact absurd hq3 hloc
            · exact ⟨hq1', hq2, hq3⟩
        · intro q hq1 hq2 hq3
          rcases List.mem_cons.mp hq1 with rfl | hq1'
          · exact absurd hq3 hloc
          · exact h4 q hq1' hq2 hq3
        · intro q hq
          refine h5 q ?_
          rintro ⟨hq1, hq2, hq3⟩
          exact hq ⟨List.mem_cons_of_mem p hq1, hq2, hq3⟩

/-- **C3**: when the whole remote listing has been processed, the remote
pass completes, and its local deletions (a) happen only after the entry
processing - no local deletion event sits among the processing events -
and (b) hit exactly the paths that were keys of `remote_files` at the
start of the pass, were not seen as files in this listing, and are keys of
`local_files`; a path absent from both this listing and the prior
`remote_files` keeps its local copy and its `local_files` entry
untouched. -/
theorem remote_pass_deletion_sweep (sys sysp : Sys) (seen : List String)
    (hproc : process_remote_entries sys.w.remote (sys, []) = ((sysp, seen), none)) :
    ∃ (sysF : Sys) (del : List String),
      execute_delta sys = (sysF, none) ∧
      (∃ evp, sysF.tr = (sys.tr ++ evp) ++ del.map Ev.delLocal ∧
        ∀ e ∈ evp, ∀ q, e ≠ Ev.delLocal q) ∧
      (∀ q, q ∈ del ↔ q ∈ akeys sys.st.remote_files ∧
        q ∉ filePaths sys.w.remote ∧ q ∈ akeys sys.st.local_files) ∧
      (∀ q, q ∉ filePaths sys.w.remote → q ∉ akeys sys.st.remote_files →
        alookup sysF.w.disk q = alookup sys.w.disk q ∧
        alookup sysF.st.local_files q = alookup sys.st.local_files q ∧
        q ∉ del) := by
  obtain ⟨hrem, hseen, hframe, evp, htr, hevp⟩ :=
    process_remote_entries_success sys.w.remote sys [] sysp seen hproc
  have hseen' : ∀ q, q ∈ seen ↔ q ∈ filePaths sys.w.remote := by
    intro q
    rw [hseen q]
    simp
  have hkr : ∀ q ∈ akeys sysp.st.remote_files,
      (alookup sysp.st.local_files q).isSome →
      (alookup sysp.st.remote_files q).isSome := by
    intro q hq _
    exact (alookup_isSome_iff_mem_akeys _ _).mpr hq
  obtain ⟨sysF, del, h1, h2, h3, h4, h5, h6⟩ :=
    delete_sweep_spec (akeys sysp.st.remote_files) seen sysp hkr
  have hed : execute_delta sys = (sysF, none) := by
    unfold execute_delta
    rw [hproc]
    exact h1
  refine ⟨sysF, del, hed, ⟨evp, ?_, ?_⟩, ?_, ?_⟩
  · rw [h2, htr]
  · intro e he q
    rcases hevp e he with ⟨q', he1, _⟩ | ⟨q', he1⟩ <;> rw [he1] <;> intro hc <;> cases hc
  · intro q
    rw [h3 q]
    by_cases hfp : q ∈ filePaths sys.w.remote
    · constructor
      · rintro ⟨_, hq2, _⟩
        exact absurd ((hseen' q).mpr hfp) hq2
      · rintro ⟨_, hq2, _⟩
        exact absurd hfp hq2
    · obtain ⟨hfl, hfr, _⟩ := hframe q hfp
      constructor
      · rintro ⟨hq1, _, hq3⟩
        refine ⟨?_, hfp, ?_⟩
        · rw [← alookup_isSome_iff_mem_akeys, ← hfr,
            alookup_isSome_iff_mem_akeys]
          exact hq1
        · rw [← alookup_isSome_iff_mem_akeys, ← hfl]
          exact hq3
      · rintro ⟨hq1, _, hq3⟩
        refine ⟨?_, fun hs => hfp ((hseen' q).mp hs), ?_⟩
        · rw [← alookup_isSome_iff_mem_akeys, hfr,
            alookup_isSome_iff_mem_akeys]
          exact hq1
        · rw [hfl, alookup_isSome_iff_mem_akeys]
          exact hq3
  · intro q hfp hrm
    obtain ⟨hfl, hfr, hfd⟩ := hframe q hfp
    have hnd : ¬(q ∈ akeys sysp.st.remote_files ∧ q ∉ seen ∧
        (alookup sysp.st.local_files q).isSome) := by
      rintro ⟨hq1, _, _⟩
      rw [← alookup_isSome_iff_mem_akeys, hfr, alookup_isSome_iff_mem_akeys] at hq1
      exact hrm hq1
    obtain ⟨c1, c2, c3⟩ := h5 q hnd
    refine ⟨c3.trans hfd, c1.trans hfl, ?_⟩
    intro hdel
    exact hnd ((h3 q).mp hdel)

/-- Concrete configuration for the remote-pass sweep witness: empty remote
listing, empty disk, one stale tracked path `"a"` in both maps. -/
def sweepWitnessSys : Sys :=
  ⟨⟨[], [], [], 0, 0⟩, ⟨[("a", ⟨1, 1⟩)], [("a", ⟨1, 1⟩)]⟩, []⟩

theorem remote_pass_deletion_sweep_witness :
    ∃ (sysF : Sys) (del : List String),
      execute_delta sweepWitnessSys = (sysF, none) ∧
      (∃ evp, sysF.tr = (sweepWitnessSys.tr ++ evp) ++ del.map Ev.delLocal ∧
        ∀ e ∈ evp, ∀ q, e ≠ Ev.delLocal q) ∧
      (∀ q, q ∈ del ↔ q ∈ akeys sweepWitnessSys.st.remote_files ∧
        q ∉ filePaths sweepWitnessSys.w.remote ∧
        q ∈ akeys sweepWitnessSys.st.local_files) ∧
      (∀ q, q ∉ filePaths sweepWitnessSys.w.remote →
        q ∉ akeys sweepWitnessSys.st.remote_files →
        alookup sysF.w.disk q = alookup sweepWitnessSys.w.disk q ∧
        alookup sysF.st.local_files q = alookup sweepWitnessSys.st.local_files q ∧
        q ∉ del) :=
  remote_pass_deletion_sweep sweepWitnessSys sweepWitnessSys [] rfl
/-! ### Listing lemmas for the idempotence analysis -/

theorem mem_filePaths_iff (l : List RemoteEntry) (q : String) :
    q ∈ filePaths l ↔ ∃ r, RemoteEntry.file q r ∈ l := by
  induction l with
  | nil => simp [filePaths]
  | cons e rest ih =>
    cases e with
    | file p r =>
      simp only [filePaths, List.mem_cons]
      constructor
      · rintro (rfl | hq)
        · exact ⟨r, Or.inl rfl⟩
        · obtain ⟨r', hr'⟩ := ih.mp hq
          exact ⟨r', Or.inr hr'⟩
      · rintro ⟨r', hcase | hr'⟩
        · cases hcase
          exact Or.inl rfl
        · exact Or.inr (ih.mpr ⟨r', hr'⟩)
    | folder p =>
      simp only [filePaths, List.mem_cons]
      rw [ih]
      constructor
      · rintro ⟨r', hr'⟩
        exact ⟨r', Or.inr hr'⟩
      · rintro ⟨r', hcase | hr'⟩
        · cases hcase
        · exact ⟨r', hr'⟩

theorem remoteRev_of_nodup (l : List RemoteEntry) (p : String) (r : Nat)
    (hnd : (filePaths l).Nodup) (hmem : RemoteEntry.file p r ∈ l) :
    remoteRev l p = some r := by
  induction l with
  | nil => cases hmem
  | cons e rest ih =>
    cases e with
    | file q r' =>
      rw [filePaths] at hnd
      rcases List.mem_cons.mp hmem with heq | htail
      · cases heq
        unfold remoteRev
        rw [if_pos rfl]
      · unfold remoteRev
        by_cases hq : q = p
        · subst hq
          exact absurd ((mem_filePaths_iff rest q).mpr ⟨r, htail⟩)
            (List.nodup_cons.mp hnd).1
        · rw [if_neg hq]
          exact ih (List.nodup_cons.mp hnd).2 htail
    | folder q =>
      rw [filePaths] at hnd
      rcases List.mem_cons.mp hmem with heq | htail
      · cases heq
      · exact ih hnd htail

theorem filePaths_setRemoteFile (l : List RemoteEntry) (p : String) (v : Nat) :
    filePaths (setRemoteFile l p v) =
      if p ∈ filePaths l then filePaths l else filePaths l ++ [p] := by
  induction l with
  | nil => simp [setRemoteFile, filePaths]
  | cons e rest ih =>
    cases e with
    | file q r =>
      unfold setRemoteFile
      by_cases hq : q = p
      · subst hq
        rw [if_pos rfl]
        simp [filePaths]
      · rw [if_neg hq]
        have hmem : (p ∈ filePaths (RemoteEntry.file q r :: rest)) ↔ p ∈ filePaths rest := by
          simp only [filePaths, List.mem_cons]
          constructor
          · rintro (rfl | hp)
            · exact absurd rfl hq
            · exact hp
          · exact Or.inr
        by_cases hp : p ∈ filePaths rest
        · rw [if_pos (hmem.mpr hp)]
          simp only [filePaths]
          rw [ih, if_pos hp]
        · rw [if_neg (fun hc => hp (hmem.mp hc))]
          simp only [filePaths]
          rw [ih, if_neg hp]
          simp
    | folder q =>
      unfold setRemoteFile
      simp only [filePaths]
      exact ih

theorem nodupFP_setRemoteFile (l : List RemoteEntry) (p : String) (v : Nat)
    (hnd : (filePaths l).Nodup) :
    (filePaths (setRemoteFile l p v)).Nodup := by
  rw [filePaths_setRemoteFile]
  by_cases hp : p ∈ filePaths l
  · rw [if_pos hp]; exact hnd
  · rw [if_neg hp]
    rw [List.nodup_append]
    exact ⟨hnd, List.nodup_singleton p, by simpa using hp⟩

theorem mem_file_setRemoteFile (l : List RemoteEntry) (p q : String) (v r' : Nat)
    (hnd : (filePaths l).Nodup)
    (hmem : RemoteEntry.file q r' ∈ setRemoteFile l p v) :
    (q = p ∧ r' = v) ∨ (RemoteEntry.file q r' ∈ l ∧ q ≠ p) := by
  induction l with
  | nil =>
    unfold setRemoteFile at hmem
    rw [List.mem_singleton] at hmem
    cases hmem
    exact Or.inl ⟨rfl, rfl⟩
  | cons e rest ih =>
    cases e with
    | file a b =>
      rw [filePaths] at hnd
      unfold setRemoteFile at hmem
      by_cases ha : a = p
      · subst ha
        rw [if_pos rfl] at hmem
        rcases List.mem_cons.mp hmem with heq | htail
        · cases heq
          exact Or.inl ⟨rfl, rfl⟩
        · by_cases hq : q = a
          · subst hq
            exact absurd ((mem_filePaths_iff rest q).mpr ⟨r', htail⟩)
              (List.nodup_cons.mp hnd).1
          · exact Or.inr ⟨List.mem_cons_of_mem _ htail, hq⟩
      · rw [if_neg ha] at hmem
        rcases List.mem_cons.mp hmem with heq | htail
        · cases heq
          exact Or.inr ⟨List.mem_cons_self _ _, ha⟩
        · rcases ih (List.nodup_cons.mp hnd).2 htail with h | ⟨h1, h2⟩
          · exact Or.inl h
          · exact Or.inr ⟨List.mem_cons_of_mem _ h1, h2⟩
    | folder a =>
      rw [filePaths] at hnd
      unfold setRemoteFile at hmem
      rcases List.mem_cons.mp hmem with heq | htail
      · cases heq
      · rcases ih hnd htail with h | ⟨h1, h2⟩
        · exact Or.inl h
        · exact Or.inr ⟨List.mem_cons_of_mem _ h1, h2⟩

theorem mem_file_dbx_delete (l : List RemoteEntry) (f q : String) (r : Nat) :
    RemoteEntry.file q r ∈ (dbx_files_delete l f).1 ↔
      RemoteEntry.file q r ∈ l ∧ q ≠ f := by
  unfold dbx_files_delete
  split
  · next hany =>
    dsimp only
    rw [List.mem_filter]
    constructor
    · rintro ⟨h1, h2⟩
      refine ⟨h1, ?_⟩
      intro hc
      rw [show (RemoteEntry.file q r).path = q from rfl] at h2
      subst hc
      simp at h2
    · rintro ⟨h1, h2⟩
      refine ⟨h1, ?_⟩
      rw [show (RemoteEntry.file q r).path = q from rfl]
      simpa using h2
  · next hany =>
    dsimp only
    constructor
    · intro h1
      refine ⟨h1, ?_⟩
      intro hc
      subst hc
      rw [List.any_eq_true] at hany
      exact hany ⟨RemoteEntry.file q r, h1, by simp [RemoteEntry.path]⟩
    · exact And.left

theorem mem_filePaths_dbx_delete (l : List RemoteEntry) (f q : String) :
    q ∈ filePaths (dbx_files_delete l f).1 ↔ q ∈ filePaths l ∧ q ≠ f := by
  rw [mem_filePaths_iff]
  constructor
  · rintro ⟨r, hr⟩
    obtain ⟨h1, h2⟩ := (mem_file_dbx_delete l f q r).mp hr
    exact ⟨(mem_filePaths_iff l q).mpr ⟨r, h1⟩, h2⟩
  · rintro ⟨h1, h2⟩
    obtain ⟨r, hr⟩ := (mem_filePaths_iff l q).mp h1
    exact ⟨r, (mem_file_dbx_delete l f q r).mpr ⟨hr, h2⟩⟩

theorem filePaths_filter_path (l : List RemoteEntry) (f : String) :
    filePaths (l.filter (fun e => !(e.path == f))) =
      (filePaths l).filter (fun s => !(s == f)) := by
  induction l with
  | nil => rfl
  | cons e rest ih =>
    rw [List.filter_cons]
    cases e with
    | file p r =>
      by_cases hp : p = f
      · rw [if_neg (by simp [RemoteEntry.path, hp])]
        rw [show filePaths (RemoteEntry.file p r :: rest) = p :: filePaths rest from rfl]
        rw [List.filter_cons, if_neg (by simp [hp])]
        exact ih
      · rw [if_pos (by simp [RemoteEntry.path, hp])]
        rw [show filePaths (RemoteEntry.file p r :: rest) = p :: filePaths rest from rfl]
        rw [List.filter_cons, if_pos (by simp [hp])]
        rw [show filePaths (RemoteEntry.file p r ::
            List.filter (fun e => !(e.path == f)) rest) =
          p :: filePaths (List.filter (fun e => !(e.path == f)) rest) from rfl]
        rw [ih]
    | folder p =>
      by_cases hp : p = f
      · rw [if_neg (by simp [RemoteEntry.path, hp])]
        rw [show filePaths (RemoteEntry.folder p :: rest) = filePaths rest from rfl]
        exact ih
      · rw [if_pos (by simp [RemoteEntry.path, hp])]
        rw [show filePaths (RemoteEntry.folder p :: rest) = filePaths rest from rfl]
        rw [show filePaths (RemoteEntry.folder p ::
            List.filter (fun e => !(e.path == f)) rest) =
          filePaths (List.filter (fun e => !(e.path == f)) rest) from rfl]
        exact ih

theorem nodupFP_dbx_delete (l : List RemoteEntry) (f : String)
    (hnd : (filePaths l).Nodup) :
    (filePaths (dbx_files_delete l f).1).Nodup := by
  unfold dbx_files_delete
  split
  · dsimp only
    rw [filePaths_filter_path]
    exact hnd.filter _
  · exact hnd

/-! ### A fully synchronized configuration is a fixed point -/

theorem process_entry_skip (sys : Sys) (seen : List String) (p : String) (r : Nat)
    (m : FileMeta) (hm : alookup sys.st.local_files p = some m) (hr : r = m.rev) :
    process_entry (sys, seen) (RemoteEntry.file p r) = ((sys, addSeen seen p), none) := by
  unfold process_entry
  dsimp only
  rw [hm]
  dsimp only
  rw [if_neg (not_not_intro hr)]

theorem process_entry_folder_effect (sys : Sys) (seen : List String) (p : String) :
    ∃ sys1, process_entry (sys, seen) (RemoteEntry.folder p) = ((sys1, seen), none) ∧
      sys1.st = sys.st ∧ sys1.w.disk = sys.w.disk ∧ sys1.w.remote = sys.w.remote ∧
      sys1.w.clock = sys.w.clock ∧ sys1.w.revc = sys.w.revc ∧
      (sys1.tr = sys.tr ∨ sys1.tr = sys.tr ++ [Ev.mkdir p]) := by
  unfold process_entry
  dsimp only
  by_cases hex : os_path_exists sys.w p = false
  · rw [if_pos (by rw [hex]; rfl)]
    rw [make_local_dir_not_exists { sys with tr := sys.tr ++ [Ev.mkdir p] } p hex]
    exact ⟨_, rfl, rfl, rfl, rfl, rfl, rfl, Or.inr rfl⟩
  · rw [if_neg (by simpa using hex)]
    exact ⟨_, rfl, rfl, rfl, rfl, rfl, rfl, Or.inl rfl⟩

/-- A remote listing whose file entries all match `local_files` is
processed without any transfer: the state, disk and listing are unchanged,
only directories may be created. -/
theorem process_entries_synced (l : List RemoteEntry) :
    ∀ sys seen,
      (∀ p r, RemoteEntry.file p r ∈ l →
        ∃ m, alookup sys.st.local_files p = some m ∧ m.rev = r) →
      ∃ sys1 seen1, process_remote_entries l (sys, seen) = ((sys1, seen1), none) ∧
        sys1.st = sys.st ∧ sys1.w.disk = sys.w.disk ∧
        sys1.w.remote = sys.w.remote ∧
        (∀ q, q ∈ seen1 ↔ q ∈ seen ∨ q ∈ filePaths l) ∧
        (∃ evm, sys1.tr = sys.tr ++ evm ∧ ∀ e ∈ evm, ∃ q, e = Ev.mkdir q) := by
  induction l with
  | nil =>
    intro sys seen _
    exact ⟨sys, seen, rfl, rfl, rfl, rfl, by simp [filePaths], [], by simp, by simp⟩
  | cons e rest ih =>
    intro sys seen hmatch
    cases e with
    | file p r =>
      obtain ⟨m, hm, hr⟩ := hmatch p r (List.mem_cons_self _ _)
      have hskip := process_entry_skip sys seen p r m hm hr.symm
      obtain ⟨sys1, seen1, h1, h2, h3, h4, h5, evm, h6, h7⟩ :=
        ih sys (addSeen seen p) (fun q r' hq => hmatch q r' (List.mem_cons_of_mem _ hq))
      refine ⟨sys1, seen1, ?_, h2, h3, h4, ?_, evm, h6, h7⟩
      · unfold process_remote_entries
        rw [hskip]
        exact h1
      · intro q
        rw [h5 q, mem_addSeen]
        simp only [filePaths, List.mem_cons]
        tauto
    | folder p =>
      obtain ⟨sysf, hf, hfst, hfdisk, hfrem, _, _, hftr⟩ :=
        process_entry_folder_effect sys seen p
      obtain ⟨sys1, seen1, h1, h2, h3, h4, h5, evm, h6, h7⟩ :=
        ih sysf seen (fun q r' hq => by
          rw [hfst]
          exact hmatch q r' (List.mem_cons_of_mem _ hq))
      refine ⟨sys1, seen1, ?_, h2.trans hfst, h3.trans hfdisk, h4.trans hfrem, ?_, ?_⟩
      · unfold process_remote_entries
        rw [hf]
        exact h1
      · intro q
        rw [h5 q]
        simp only [filePaths]
      · rcases hftr with htr | htr
        · exact ⟨evm, by rw [h6, htr], h7⟩
        · refine ⟨Ev.mkdir p :: evm, by rw [h6, htr]; simp, ?_⟩
          intro ev hev
          rcases List.mem_cons.mp hev with rfl | hev'
          · exact ⟨p, rfl⟩
          · exact h7 ev hev'

theorem delete_sweep_noop (ks : List String) (seen : List String) :
    ∀ sys, (∀ q ∈ ks, q ∉ seen → alookup sys.st.local_files q = none) →
      delete_sweep ks seen sys = (sys, none) := by
  induction ks with
  | nil => intro sys _; rfl
  | cons p ps ih =>
    intro sys h
    unfold delete_sweep
    by_cases hseen : p ∈ seen
    · rw [if_neg (not_not_intro hseen)]
      exact ih sys (fun q hq => h q (List.mem_cons_of_mem _ hq))
    · rw [if_pos hseen]
      rw [if_neg (by rw [h p (List.mem_cons_self _ _) hseen]; simp)]
      exact ih sys (fun q hq => h q (List.mem_cons_of_mem _ hq))

theorem check_state_noop (sys : Sys) (p : String) (mt : Nat) (m : FileMeta)
    (hs : (alookup sys.st.remote_files p).isSome)
    (hd : alookup sys.w.disk p = some mt)
    (hm : alookup sys.st.local_files p = some m)
    (hle : ¬ m.modified < mt) :
    check_state sys p = (sys, none) := by
  obtain ⟨mr, hmr⟩ := Option.isSome_iff_exists.mp hs
  unfold check_state
  simp [hmr, hd, hm, hle]

theorem check_local_loop_noop (ps : List String) :
    ∀ sys, (∀ p ∈ ps, ∃ mt m, alookup sys.w.disk p = some mt ∧
        alookup sys.st.local_files p = some m ∧
        (alookup sys.st.remote_files p).isSome ∧ mt ≤ m.modified) →
      check_local_loop ps sys = (sys, none) := by
  induction ps with
  | nil => intro sys _; rfl
  | cons p ps ih =>
    intro sys h
    obtain ⟨mt, m, h1, h2, h3, h4⟩ := h p (List.mem_cons_self _ _)
    unfold check_local_loop
    rw [check_state_noop sys p mt m h3 h1 h2 (by omega)]
    exact ih sys (fun q hq => h q (List.mem_cons_of_mem _ hq))

theorem delete_remote_sweep_noop (filelist ks : List String) :
    ∀ sys, (∀ f ∈ ks, f ∈ filelist) →
      delete_remote_sweep filelist ks sys = (sys, none) := by
  induction ks with
  | nil => intro sys _; rfl
  | cons f fs ih =>
    intro sys h
    unfold delete_remote_sweep
    rw [if_neg (not_not_intro (h f (List.mem_cons_self _ _)))]
    exact ih sys (fun q hq => h q (List.mem_cons_of_mem _ hq))

/-- A fully synchronized configuration: every listed remote file matches
`local_files` by revision, every scanned local file is tracked in both
maps with a modification time at least the on-disk one, and every
`local_files` key is both scanned and listed remotely. -/
def Synced (sys : Sys) : Prop :=
  (∀ p r, RemoteEntry.file p r ∈ sys.w.remote →
    ∃ m, alookup sys.st.local_files p = some m ∧ m.rev = r) ∧
  (∀ p, p ∈ scan sys.w.disk → ∃ mt m,
    alookup sys.w.disk p = some mt ∧ alookup sys.st.local_files p = some m ∧
    (alookup sys.st.remote_files p).isSome ∧ mt ≤ m.modified) ∧
  (∀ p, (alookup sys.st.local_files p).isSome →
    p ∈ scan sys.w.disk ∧ p ∈ filePaths sys.w.remote)

/-- A synchronized configuration runs to completion with no transfer at
all: only directory creations can appear in the trace. -/
theorem run_synced (sys : Sys) (h : Synced sys) :
    ∃ (sys2 : Sys) (evm : List Ev), run sys = (sys2, none) ∧
      sys2.tr = sys.tr ++ evm ∧ ∀ e ∈ evm, ∃ q, e = Ev.mkdir q := by
  obtain ⟨hS1, hS2, hS3⟩ := h
  obtain ⟨sys1, seen1, hed1, hst, hdisk, hrem, hseen, evm, htr, hevm⟩ :=
    process_entries_synced sys.w.remote sys [] hS1
  have hsw : delete_sweep (akeys sys1.st.remote_files) seen1 sys1 = (sys1, none) := by
    apply delete_sweep_noop
    intro q _ hqs
    by_cases hloc : (alookup sys1.st.local_files q).isSome
    · rw [hst] at hloc
      have := (hS3 q hloc).2
      exact absurd ((hseen q).mpr (Or.inr this)) hqs
    · exact Option.not_isSome_iff_eq_none.mp hloc
  have hed : execute_delta sys = (sys1, none) := by
    unfold execute_delta
    rw [hed1]
    exact hsw
  have hloop : check_local_loop (scan sys1.w.disk) sys1 = (sys1, none) := by
    apply check_local_loop_noop
    intro p hp
    rw [hdisk] at hp
    obtain ⟨mt, m, h1, h2, h3, h4⟩ := hS2 p hp
    exact ⟨mt, m, by rw [hdisk]; exact h1, by rw [hst]; exact h2,
      by rw [hst]; exact h3, h4⟩
  have hswr : delete_remote_sweep (scan sys1.w.disk) (akeys sys1.st.local_files) sys1 =
      (sys1, none) := by
    apply delete_remote_sweep_noop
    intro f hf
    rw [← alookup_isSome_iff_mem_akeys, hst] at hf
    rw [hdisk]
    exact (hS3 f hf).1
  have hcl : check_local sys1 = (sys1, none) := by
    unfold check_local
    dsimp only
    rw [hloop]
    exact hswr
  refine ⟨sys1, evm, ?_, htr, hevm⟩
  unfold run
  rw [hed]
  exact hcl

/-! ### Forward analysis of a successful run -/

/-- Local metadata matches the on-disk file and is tracked remotely. -/
def Lsync (sys : Sys) (p : String) : Prop :=
  ∃ mt m, alookup sys.w.disk p = some mt ∧
    alookup sys.st.local_files p = some m ∧
    (alookup sys.st.remote_files p).isSome ∧ mt ≤ m.modified

/-- Every listed remote file matches `local_files` by revision. -/
def RevMatch (sys : Sys) : Prop :=
  ∀ p r, RemoteEntry.file p r ∈ sys.w.remote →
    ∃ m, alookup sys.st.local_files p = some m ∧ m.rev = r

/-- Every path tracked in both maps appears as a file in the listing. -/
def Tracked (sys : Sys) : Prop :=
  ∀ q, (alookup sys.st.local_files q).isSome →
    (alookup sys.st.remote_files q).isSome → q ∈ filePaths sys.w.remote

theorem process_entry_file_post (sys sysm : Sys) (seen seenm : List String)
    (p : String) (r : Nat)
    (h : process_entry (sys, seen) (RemoteEntry.file p r) = ((sysm, seenm), none))
    (hrev : remoteRev sys.w.remote p = some r) :
    ∃ m, alookup sysm.st.local_files p = some m ∧ m.rev = r := by
  unfold process_entry at h
  dsimp only at h
  cases hm : alookup sys.st.local_files p with
  | none =>
    rw [hm] at h
    dsimp only at h
    rcases h2 : download_remote sys p with ⟨s', e2⟩
    rw [h2] at h
    cases e2 with
    | none =>
      simp only [Prod.mk.injEq] at h
      obtain ⟨⟨h3, _⟩, _⟩ := h
      subst h3
      obtain ⟨r', hr', _, _, _, hloc, _, _⟩ := download_remote_success sys s' p h2
      rw [hrev] at hr'
      cases hr'
      rw [hloc, alookup_aset, if_pos rfl]
      exact ⟨_, rfl, rfl⟩
    | some er => simp at h
  | some m =>
    rw [hm] at h
    dsimp only at h
    by_cases hne : r ≠ m.rev
    · rw [if_pos hne] at h
      rcases h2 : download_remote sys p with ⟨s', e2⟩
      rw [h2] at h
      cases e2 with
      | none =>
        simp only [Prod.mk.injEq] at h
        obtain ⟨⟨h3, _⟩, _⟩ := h
        subst h3
        obtain ⟨r', hr', _, _, _, hloc, _, _⟩ := download_remote_success sys s' p h2
        rw [hrev] at hr'
        cases hr'
        rw [hloc, alookup_aset, if_pos rfl]
        exact ⟨_, rfl, rfl⟩
      | some er => simp at h
    · rw [if_neg hne] at h
      simp only [Prod.mk.injEq] at h
      obtain ⟨⟨h3, _⟩, _⟩ := h
      subst h3
      exact ⟨m, hm, (not_not.mp hne).symm⟩

/-- After a successfully processed listing with distinct file paths, every
listed file's revision is recorded in `local_files`. -/
theorem process_entries_establishes (l : List RemoteEntry) :
    ∀ sys seen sysp seenp,
      process_remote_entries l (sys, seen) = ((sysp, seenp), none) →
      (filePaths l).Nodup →
      (∀ p r, RemoteEntry.file p r ∈ l → remoteRev sys.w.remote p = some r) →
      ∀ p r, RemoteEntry.file p r ∈ l →
        ∃ m, alookup sysp.st.local_files p = some m ∧ m.rev = r := by
  induction l with
  | nil =>
    intro sys seen sysp seenp _ _ _ p r hp
    cases hp
  | cons e rest ih =>
    intro sys seen sysp seenp h hnd hrev p r hp
    unfold process_remote_entries at h
    rcases h1 : process_entry (sys, seen) e with ⟨⟨sysm, seenm⟩, em⟩
    rw [h1] at h
    cases em with
    | some er => simp at h
    | none =>
      dsimp only at h
      obtain ⟨hrm, _, _, _⟩ := process_entry_success sys seen e sysm seenm h1
      have hnd' : (filePaths rest).Nodup := by
        cases e with
        | file a b => exact (List.nodup_cons.mp (by simpa [filePaths] using hnd)).2
        | folder a => simpa [filePaths] using hnd
      have hrev' : ∀ p' r', RemoteEntry.file p' r' ∈ rest →
          remoteRev sysm.w.remote p' = some r' := by
        intro p' r' hp'
        rw [hrm]
        exact hrev p' r' (List.mem_cons_of_mem _ hp')
      rcases List.mem_cons.mp hp with heq | htail
      · cases e with
        | file a b =>
          cases heq
          obtain ⟨m, hm, hmr⟩ := process_entry_file_post sys sysm seen seenm p r h1
            (hrev p r (List.mem_cons_self _ _))
          have hpf : p ∉ filePaths rest :=
            (List.nodup_cons.mp (by simpa [filePaths] using hnd)).1
          obtain ⟨_, _, hframe, _⟩ :=
            process_remote_entries_success rest sysm seenm sysp seenp h
          obtain ⟨hfl, _, _⟩ := hframe p hpf
          exact ⟨m, hfl.trans hm, hmr⟩
        | folder a => cases heq
      · exact ih sysm seenm sysp seenp h hnd' hrev' p r htail

/-- A successful `delete_remote`, described pointwise. -/
theorem delete_remote_success_effect (sys sys' : Sys) (f : String)
    (h : delete_remote sys f = (sys', none)) :
    (alookup sys.st.local_files f).isSome ∧
    (alookup sys.st.remote_files f).isSome ∧
    sys'.w.remote = (dbx_files_delete sys.w.remote f).1 ∧
    sys'.w.disk = sys.w.disk ∧
    sys'.st.local_files = adel sys.st.local_files f ∧
    sys'.st.remote_files = adel sys.st.remote_files f ∧
    sys'.tr = sys.tr ++ [Ev.delRemote f] := by
  rw [delete_remote_parts, delete_remote_prim_effect] at h
  split at h
  · next h1 =>
    split at h
    · next h2 =>
      simp only [Prod.mk.injEq] at h
      rw [← h.1]
      exact ⟨h1, h2, rfl, rfl, rfl, rfl, rfl⟩
    · simp at h
  · simp at h

/-- The remote-deletion sweep of `check_local`: survivors of `local_files`
were scanned, paths in the scan are untouched, and the listing invariants
are preserved. -/
theorem delete_remote_sweep_post (filelist : List String) (ks : List String) :
    ∀ sys sys', delete_remote_sweep filelist ks sys = (sys', none) →
      sys'.w.disk = sys.w.disk ∧
      (∀ f, (alookup sys'.st.local_files f).isSome →
        f ∈ filelist ∨ ((alookup sys.st.local_files f).isSome ∧ f ∉ ks)) ∧
      (∀ q, q ∈ filelist →
        alookup sys'.st.local_files q = alookup sys.st.local_files q ∧
        alookup sys'.st.remote_files q = alookup sys.st.remote_files q) ∧
      ((filePaths sys.w.remote).Nodup → (filePaths sys'.w.remote).Nodup) ∧
      (RevMatch sys → RevMatch sys') ∧
      (Tracked sys → Tracked sys') := by
  induction ks with
  | nil =>
    intro sys sys' h
    unfold delete_remote_sweep at h
    simp only [Prod.mk.injEq] at h
    rw [← h.1]
    exact ⟨rfl, fun f hf => Or.inr ⟨hf, by simp⟩, fun q _ => ⟨rfl, rfl⟩,
      id, id, id⟩
  | cons f fs ih =>
    intro sys sys' h
    unfold delete_remote_sweep at h
    by_cases hf : f ∈ filelist
    · rw [if_neg (not_not_intro hf)] at h
      obtain ⟨d1, d2, d3, d4, d5, d6⟩ := ih sys sys' h
      refine ⟨d1, ?_, d3, d4, d5, d6⟩
      intro f' hf'
      rcases d2 f' hf' with h1 | ⟨h1, h2⟩
      · exact Or.inl h1
      · by_cases hff : f' = f
        · exact Or.inl (hff ▸ hf)
        · refine Or.inr ⟨h1, ?_⟩
          intro hc
          rcases List.mem_cons.mp hc with heq | hc'
          · exact hff heq
          · exact h2 hc'
    · rw [if_pos hf] at h
      rcases h2 : delete_remote sys f with ⟨sysd, e2⟩
      rw [h2] at h
      cases e2 with
      | some er => simp at h
      | none =>
        obtain ⟨hl, hr, e3, e4, e5, e6, e7⟩ := delete_remote_success_effect sys sysd f h2
        obtain ⟨d1, d2, d3, d4, d5, d6⟩ := ih sysd sys' h
        have hld : ∀ q, alookup sysd.st.local_files q =
            if f = q then none else alookup sys.st.local_files q := by
          intro q; rw [e5]; exact alookup_adel _ _ _
        have hrd : ∀ q, alookup sysd.st.remote_files q =
            if f = q then none else alookup sys.st.remote_files q := by
          intro q; rw [e6]; exact alookup_adel _ _ _
        refine ⟨d1.trans e4, ?_, ?_, ?_, ?_, ?_⟩
        · intro f' hf'
          rcases d2 f' hf' with h1 | ⟨h1, h2⟩
          · exact Or.inl h1
          · rw [hld f'] at h1
            by_cases hff : f = f'
            · rw [if_pos hff] at h1
              simp at h1
            · rw [if_neg hff] at h1
              refine Or.inr ⟨h1, ?_⟩
              intro hc
              rcases List.mem_cons.mp hc with heq | hc'
              · exact hff heq.symm
              · exact h2 hc'
        · intro q hq
          have hfq : ¬ f = q := by
            rintro rfl
            exact hf hq
          obtain ⟨c1, c2⟩ := d3 q hq
          rw [c1, c2, hld q, hrd q, if_neg hfq, if_neg hfq]
          exact ⟨rfl, rfl⟩
        · intro hnd
          apply d4
          rw [e3]
          exact nodupFP_dbx_delete _ _ hnd
        · intro hrm
          apply d5
          intro q r hq
          rw [e3] at hq
          obtain ⟨hq1, hq2⟩ := (mem_file_dbx_delete _ _ _ _).mp hq
          obtain ⟨m, hm, hmr⟩ := hrm q r hq1
          refine ⟨m, ?_, hmr⟩
          rw [hld q, if_neg (fun hh => hq2 hh.symm)]
          exact hm
        · intro htk
          apply d6
          intro q hq1 hq2
          rw [hld q] at hq1
          rw [hrd q] at hq2
          by_cases hfq : f = q
          · rw [if_pos hfq] at hq1
            simp at hq1
          · rw [if_neg hfq] at hq1 hq2
            rw [e3, mem_filePaths_dbx_delete]
            exact ⟨htk q hq1 hq2, fun hh => hfq hh.symm⟩

/-- A successful `check_state` either does nothing (metadata current) or
performs a successful upload. -/
theorem check_state_success_shape (sys sys' : Sys) (p : String)
    (h : check_state sys p = (sys', none)) :
    (sys' = sys ∧ ∃ mt m, alookup sys.w.disk p = some mt ∧
      alookup sys.st.local_files p = some m ∧
      (alookup sys.st.remote_files p).isSome ∧ mt ≤ m.modified) ∨
    (∃ mt, alookup sys.w.disk p = some mt ∧
      sys'.w.remote = setRemoteFile sys.w.remote p sys.w.revc ∧
      sys'.w.disk = sys.w.disk ∧
      sys'.st.local_files = aset sys.st.local_files p ⟨sys.w.revc, mt⟩ ∧
      sys'.st.remote_files = aset sys.st.remote_files p ⟨sys.w.revc, mt⟩ ∧
      sys'.tr = sys.tr ++ [Ev.upload p]) := by
  unfold check_state at h
  split at h
  · obtain ⟨mt, h1, h2, h3, h4, h5, h6, h7⟩ := upload_success sys sys' p h
    exact Or.inr ⟨mt, h1, h2, h3, h5, h6, h7⟩
  · next hrs =>
    rw [Option.isNone_iff_eq_none] at hrs
    split at h
    · simp at h
    · next mt hd =>
      split at h
      · simp at h
      · next m hm =>
        split at h
        · obtain ⟨mt', h1, h2, h3, h4, h5, h6, h7⟩ := upload_success sys sys' p h
          exact Or.inr ⟨mt', h1, h2, h3, h5, h6, h7⟩
        · next hlt =>
          simp only [Prod.mk.injEq] at h
          refine Or.inl ⟨h.1.symm, mt, m, hd, hm, ?_, by omega⟩
          rw [Option.isSome_iff_ne_none]
          exact hrs

theorem check_state_success_disk (sys sys' : Sys) (p : String)
    (h : check_state sys p = (sys', none)) : sys'.w.disk = sys.w.disk := by
  rcases check_state_success_shape sys sys' p h with ⟨heq, _⟩ | ⟨_, _, _, hd, _⟩
  · rw [heq]
  · exact hd

theorem check_state_success_Lsync_pres (sys sys' : Sys) (p q : String)
    (h : check_state sys p = (sys', none)) (hq : Lsync sys q) : Lsync sys' q := by
  rcases check_state_success_shape sys sys' p h with ⟨heq, _⟩ |
    ⟨mt, h1, _, h3, h4, h5, _⟩
  · rw [heq]; exact hq
  · obtain ⟨mtq, m, hq1, hq2, hq3, hq4⟩ := hq
    by_cases hpq : p = q
    · subst hpq
      refine ⟨mt, ⟨sys.w.revc, mt⟩, by rw [h3]; exact h1, ?_, ?_, le_refl _⟩
      · rw [h4, alookup_aset, if_pos rfl]
      · rw [h5, alookup_aset, if_pos rfl]
        rfl
    · refine ⟨mtq, m, by rw [h3]; exact hq1, ?_, ?_, hq4⟩
      · rw [h4, alookup_aset, if_neg hpq]
        exact hq2
      · rw [h5, alookup_aset, if_neg hpq]
        exact hq3

theorem check_state_success_Lsync_est (sys sys' : Sys) (p : String)
    (h : check_state sys p = (sys', none)) : Lsync sys' p := by
  rcases check_state_success_shape sys sys' p h with ⟨heq, mt, m, h1, h2, h3, h4⟩ |
    ⟨mt, h1, _, h3, h4, h5, _⟩
  · rw [heq]; exact ⟨mt, m, h1, h2, h3, h4⟩
  · refine ⟨mt, ⟨sys.w.revc, mt⟩, by rw [h3]; exact h1, ?_, ?_, le_refl _⟩
    · rw [h4, alookup_aset, if_pos rfl]
    · rw [h5, alookup_aset, if_pos rfl]
      rfl

theorem check_state_success_listing (sys sys' : Sys) (p : String)
    (h : check_state sys p = (sys', none))
    (hnd : (filePaths sys.w.remote).Nodup) :
    (filePaths sys'.w.remote).Nodup ∧
    (RevMatch sys → RevMatch sys') ∧ (Tracked sys → Tracked sys') := by
  rcases check_state_success_shape sys sys' p h with ⟨heq, _⟩ |
    ⟨mt, h1, h2, h3, h4, h5, _⟩
  · rw [heq]; exact ⟨hnd, id, id⟩
  · refine ⟨by rw [h2]; exact nodupFP_setRemoteFile _ _ _ hnd, ?_, ?_⟩
    · intro hrm q r hq
      rw [h2] at hq
      rcases mem_file_setRemoteFile sys.w.remote p q sys.w.revc r hnd hq with
        ⟨rfl, rfl⟩ | ⟨hq1, hq2⟩
      · refine ⟨⟨sys.w.revc, mt⟩, ?_, rfl⟩
        rw [h4, alookup_aset, if_pos rfl]
      · obtain ⟨m, hm, hmr⟩ := hrm q r hq1
        refine ⟨m, ?_, hmr⟩
        rw [h4, alookup_aset, if_neg (fun hh => hq2 hh.symm)]
        exact hm
    · intro htk q hq1 hq2
      have hmem : ∀ s, s ∈ filePaths sys.w.remote ∨ s = p →
          s ∈ filePaths sys'.w.remote := by
        intro s hs
        rw [h2, filePaths_setRemoteFile]
        by_cases hp : p ∈ filePaths sys.w.remote
        · rw [if_pos hp]
          rcases hs with hs | rfl
          · exact hs
          · exact hp
        · rw [if_neg hp]
          rw [List.mem_append]
          rcases hs with hs | rfl
          · exact Or.inl hs
          · exact Or.inr (List.mem_singleton_self _)
      by_cases hpq : p = q
      · exact hmem q (Or.inr hpq.symm)
      · rw [h4, alookup_aset, if_neg hpq] at hq1
        rw [h5, alookup_aset, if_neg hpq] at hq2
        exact hmem q (Or.inl (htk q hq1 hq2))

/-- The `check_state` loop of the local pass: the disk is unchanged, every
already-synchronized path stays synchronized, every scanned path ends up
synchronized, and the listing invariants are preserved. -/
theorem check_local_loop_post (ps : List String) :
    ∀ sys sys', check_local_loop ps sys = (sys', none) →
      sys'.w.disk = sys.w.disk ∧
      (∀ q, Lsync sys q → Lsync sys' q) ∧
      (∀ p ∈ ps, Lsync sys' p) ∧
      ((filePaths sys.w.remote).Nodup →
        (filePaths sys'.w.remote).Nodup ∧
        (RevMatch sys → RevMatch sys') ∧
        (Tracked sys → Tracked sys')) := by
  induction ps with
  | nil =>
    intro sys sys' h
    unfold check_local_loop at h
    simp only [Prod.mk.injEq] at h
    rw [← h.1]
    exact ⟨rfl, fun q hq => hq, by simp, fun hnd => ⟨hnd, id, id⟩⟩
  | cons p ps ih =>
    intro sys sys' h
    unfold check_local_loop at h
    rcases h1 : check_state sys p with ⟨sysm, e1⟩
    rw [h1] at h
    cases e1 with
    | some er => simp at h
    | none =>
      obtain ⟨d1, d2, d3, d4⟩ := ih sysm sys' h
      refine ⟨d1.trans (check_state_success_disk sys sysm p h1), ?_, ?_, ?_⟩
      · intro q hq
        exact d2 q (check_state_success_Lsync_pres sys sysm p q h1 hq)
      · intro p' hp'
        rcases List.mem_cons.mp hp' with rfl | hp''
        · exact d2 p' (check_state_success_Lsync_est sys sysm p' h1)
        · exact d3 p' hp''
      · intro hnd
        obtain ⟨n1, n2, n3⟩ := check_state_success_listing sys sysm p h1 hnd
        obtain ⟨m1, m2, m3⟩ := d4 n1
        exact ⟨m1, fun hrm => m2 (n2 hrm), fun htk => m3 (n3 htk)⟩

/-- After a successful run from a listing with distinct file paths, the
configuration is fully synchronized. -/
theorem run_success_synced (sys0 sys1 : Sys)
    (hnd : (filePaths sys0.w.remote).Nodup)
    (h : run sys0 = (sys1, none)) :
    Synced sys1 := by
  unfold run at h
  rcases hed0 : execute_delta sys0 with ⟨sysa, ea⟩
  rw [hed0] at h
  cases ea with
  | some er => simp at h
  | none =>
    dsimp only at h
    unfold execute_delta at hed0
    rcases hp0 : process_remote_entries sys0.w.remote (sys0, []) with ⟨⟨sysp, seen⟩, ep⟩
    rw [hp0] at hed0
    cases ep with
    | some er => simp at hed0
    | none =>
      dsimp only at hed0
      obtain ⟨hPrem, hPseen, hPframe, _⟩ :=
        process_remote_entries_success sys0.w.remote sys0 [] sysp seen hp0
      have hseen : ∀ q, q ∈ seen ↔ q ∈ filePaths sys0.w.remote := by
        intro q; rw [hPseen q]; simp
      have hEst := process_entries_establishes sys0.w.remote sys0 [] sysp seen hp0 hnd
        (fun p r hp => remoteRev_of_nodup _ p r hnd hp)
      have hkr : ∀ q ∈ akeys sysp.st.remote_files,
          (alookup sysp.st.local_files q).isSome →
          (alookup sysp.st.remote_files q).isSome :=
        fun q hq _ => (alookup_isSome_iff_mem_akeys _ _).mpr hq
      obtain ⟨sysF, del, s1, s2, s3, s4, s5, s6⟩ :=
        delete_sweep_spec (akeys sysp.st.remote_files) seen sysp hkr
      rw [s1] at hed0
      simp only [Prod.mk.injEq] at hed0
      obtain ⟨hFa, -⟩ := hed0
      subst hFa
      have hRMa : RevMatch sysF := by
        intro p r hpmem
        rw [s6, hPrem] at hpmem
        have hpseen : p ∈ seen := (hseen p).mpr ((mem_filePaths_iff _ _).mpr ⟨r, hpmem⟩)
        obtain ⟨m, hm, hmr⟩ := hEst p r hpmem
        have hframe := s5 p (by rintro ⟨_, hq2, _⟩; exact hq2 hpseen)
        exact ⟨m, hframe.1.trans hm, hmr⟩
      have hTa : Tracked sysF := by
        intro q hq1 hq2
        by_cases hqs : q ∈ seen
        · rw [s6, hPrem]
          exact (hseen q).mp hqs
        · by_cases hD : q ∈ akeys sysp.st.remote_files ∧ q ∉ seen ∧
              (alookup sysp.st.local_files q).isSome
          · obtain ⟨c1, -, -⟩ := s4 q hD.1 hD.2.1 hD.2.2
            rw [c1] at hq1
            simp at hq1
          · obtain ⟨c1, c2, -⟩ := s5 q hD
            rw [c1] at hq1
            rw [c2] at hq2
            exact absurd ⟨(alookup_isSome_iff_mem_akeys _ _).mp hq2, hqs, hq1⟩ hD
      have hnda : (filePaths sysF.w.remote).Nodup := by
        rw [s6, hPrem]; exact hnd
      unfold check_local at h
      dsimp only at h
      rcases hl0 : check_local_loop (scan sysF.w.disk) sysF with ⟨sysc, ec⟩
      rw [hl0] at h
      cases ec with
      | some er => simp at h
      | none =>
        dsimp only at h
        obtain ⟨L1, L2, L3, L4⟩ := check_local_loop_post (scan sysF.w.disk) sysF sysc hl0
        obtain ⟨Ln, LRM, LT⟩ := L4 hnda
        obtain ⟨M1, M2, M3, M4, M5, M6⟩ :=
          delete_remote_sweep_post (scan sysF.w.disk) (akeys sysc.st.local_files)
            sysc sys1 h
        have hdisk1 : sys1.w.disk = sysF.w.disk := M1.trans L1
        have hS3a : ∀ p, (alookup sys1.st.local_files p).isSome →
            p ∈ scan sysF.w.disk := by
          intro p hp
          rcases M2 p hp with h1 | ⟨h1, h2⟩
          · exact h1
          · exact absurd ((alookup_isSome_iff_mem_akeys _ _).mp h1) h2
        have hS2a : ∀ p, p ∈ scan sysF.w.disk → Lsync sys1 p := by
          intro p hp
          obtain ⟨mt, m, c1, c2, c3, c4⟩ := L3 p hp
          obtain ⟨f1, f2⟩ := M3 p hp
          exact ⟨mt, m, by rw [M1]; exact c1, by rw [f1]; exact c2,
            by rw [f2]; exact c3, c4⟩
        have hRM1 : RevMatch sys1 := M5 (LRM hRMa)
        have hT1 : Tracked sys1 := M6 (LT hTa)
        refine ⟨hRM1, ?_, ?_⟩
        · intro p hp
          rw [show scan sys1.w.disk = scan sysF.w.disk by rw [hdisk1]] at hp
          exact hS2a p hp
        · intro p hp
          have hscan := hS3a p hp
          obtain ⟨mt, m, c1, c2, c3, c4⟩ := hS2a p hscan
          refine ⟨?_, hT1 p hp c3⟩
          rw [show scan sys1.w.disk = scan sysF.w.disk by rw [hdisk1]]
          exact hscan

/-- **C5**: idempotence.  When a run from a well-formed listing (distinct
remote file paths) completes, a second run with no intervening filesystem
or remote changes also completes and performs zero transfers: every event
of the second run is a directory creation - no upload and no download
occurs. -/
theorem run_idempotent (sys0 sys1 : Sys)
    (hnd : (filePaths sys0.w.remote).Nodup)
    (h1 : run sys0 = (sys1, none)) :
    ∃ (sys2 : Sys) (evm : List Ev), run sys1 = (sys2, none) ∧
      sys2.tr = sys1.tr ++ evm ∧ ∀ e ∈ evm, ∃ q, e = Ev.mkdir q :=
  run_synced sys1 (run_success_synced sys0 sys1 hnd h1)

/-- Concrete configuration for the idempotence witness. -/
def idemWitnessSys : Sys := ⟨⟨[], [], [], 0, 0⟩, ⟨[], []⟩, []⟩

theorem run_idempotent_witness :
    ∃ (sys2 : Sys) (evm : List Ev), run idemWitnessSys = (sys2, none) ∧
      sys2.tr = idemWitnessSys.tr ++ evm ∧ ∀ e ∈ evm, ∃ q, e = Ev.mkdir q :=
  run_idempotent idemWitnessSys idemWitnessSys (by decide) rfl

end Synchronator
